import Mathlib

/-!
Verification of the LIMS2DB core algorithms against their natural-language
specification.  The Python sources are shallowly embedded: Python dicts are
modelled as insertion-ordered association lists with string keys, JSON-like
document values as an inductive type, and functions that can raise are
modelled in the Except monad.  Functions of this repository that are only
available through their callers (functions.py, process_categories.py) are
modelled from the spec and marked as such in their doc comments.
-/

/-! ### Association lists modelling Python dicts

A Python dict is modelled as a list of key-value pairs in insertion order
with pairwise-distinct keys.  Lookup returns the first binding; assignment
(insertA) replaces the binding in place when the key exists and appends
otherwise, exactly like a dict assignment; updateAList folds assignments of
a second dict into a first one like dict.update.
-/

def lookupA {α : Type} : List (String × α) → String → Option α
  | [], _ => none
  | (k1, v1) :: rest, k => if k1 = k then some v1 else lookupA rest k

def updateFirst {α : Type} : List (String × α) → String → α → List (String × α)
  | [], _, _ => []
  | (k1, v1) :: rest, k, v => if k1 = k then (k1, v) :: rest else (k1, v1) :: updateFirst rest k v

def insertA {α : Type} (d : List (String × α)) (k : String) (v : α) : List (String × α) :=
  if (d.map Prod.fst).contains k then updateFirst d k v else d ++ [(k, v)]

def updateAList {α : Type} (d : List (String × α)) (e : List (String × α)) : List (String × α) :=
  e.foldl (fun acc kv => insertA acc kv.1 kv.2) d

def eraseFirst {α : Type} : List (String × α) → String → List (String × α)
  | [], _ => []
  | (k1, v1) :: rest, k => if k1 = k then rest else (k1, v1) :: eraseFirst rest k

theorem lookupA_updateFirst_ne {α : Type} (a : List (String × α)) (k k' : String) (v : α)
    (h : k ≠ k') : lookupA (updateFirst a k' v) k = lookupA a k := by
  induction a with
  | nil => rfl
  | cons hd tl ih =>
    obtain ⟨k1, v1⟩ := hd
    by_cases hk : k1 = k'
    · subst hk
      simp [updateFirst, lookupA, Ne.symm h]
    · simp [updateFirst, hk, lookupA]
      by_cases hk2 : k1 = k
      · simp [hk2]
      · simp [hk2, ih]

theorem lookupA_append_of_isSome {α : Type} (a b : List (String × α)) (k : String)
    (h : (lookupA a k).isSome) : lookupA (a ++ b) k = lookupA a k := by
  induction a with
  | nil => simp [lookupA] at h
  | cons hd tl ih =>
    obtain ⟨k1, v1⟩ := hd
    by_cases hk : k1 = k
    · simp [lookupA, hk]
    · simp [lookupA, hk] at h ⊢
      exact ih h

theorem lookupA_append_ne {α : Type} (a : List (String × α)) (k k' : String) (v : α)
    (h : k ≠ k') : lookupA (a ++ [(k', v)]) k = lookupA a k := by
  induction a with
  | nil => simp [lookupA, Ne.symm h]
  | cons hd tl ih =>
    obtain ⟨k1, v1⟩ := hd
    by_cases hk : k1 = k
    · simp [lookupA, hk]
    · simp [lookupA, hk, ih]

/-! ### Document values

The value universe of the persisted project documents: null, strings,
numbers, arrays, and nested string-keyed mappings.
-/

inductive Val where
  | null : Val
  | str : String → Val
  | num : Int → Val
  | arr : List Val → Val
  | dict : List (String × Val) → Val

def isDictV : Val → Bool
  | Val.dict _ => true
  | _ => false

/-! ### Document Merger (LIMS2DB/utils.py, merge)

Faithful embedding of utils.merge: iterate the keys of d2 in order; a key
present in both with both values dicts recurses; a key present in both
otherwise leaves d1 untouched (the equal-leaf branch and the implicit
unequal branch both do nothing); a key only in d2 is copied (appended).
The Python function mutates and returns d1; the embedding returns the
final value of d1.
-/

mutual
/-- One step of the merge loop: the state of d1 after processing a single
key-value pair (k, v2) of d2, mirroring the three branches of the loop
body of utils.merge. -/
def mergeStep (a : List (String × Val)) (k : String) (v2 : Val) : List (String × Val) :=
  match lookupA a k, v2 with
  | some (Val.dict da), Val.dict db => updateFirst a k (Val.dict (merge da db))
  | some _, _ => a
  | none, _ => a ++ [(k, v2)]

termination_by sizeOf v2
decreasing_by all_goals simp_wf

def merge (a : List (String × Val)) : List (String × Val) → List (String × Val)
  | [] => a
  | (k, v2) :: rest => merge (mergeStep a k v2) rest
termination_by l => sizeOf l
decreasing_by all_goals simp_wf <;> omega
end

theorem merge_nil (a : List (String × Val)) : merge a [] = a := by
  simp [merge]

theorem merge_cons (a : List (String × Val)) (k2 : String) (v2 : Val)
    (rest : List (String × Val)) :
    merge a ((k2, v2) :: rest) = merge (mergeStep a k2 v2) rest := by
  simp [merge]

theorem lookupA_mergeStep_ne (a : List (String × Val)) (k k2 : String) (v2 : Val)
    (h : k ≠ k2) : lookupA (mergeStep a k2 v2) k = lookupA a k := by
  unfold mergeStep
  split
  · exact lookupA_updateFirst_ne a k k2 _ h
  · rfl
  · exact lookupA_append_ne a k k2 _ h

theorem lookupA_mergeStep_not_both_dict (a : List (String × Val)) (k : String) (v v2 : Val)
    (h : lookupA a k = some v) (hnb : ¬(isDictV v = true ∧ isDictV v2 = true)) :
    lookupA (mergeStep a k v2) k = some v := by
  unfold mergeStep
  rw [h]
  cases v with
  | dict d =>
    cases v2 with
    | dict d2 => exact absurd ⟨rfl, rfl⟩ hnb
    | null => exact h
    | str s => exact h
    | num n => exact h
    | arr l => exact h
  | null => cases v2 <;> exact h
  | str s => cases v2 <;> exact h
  | num n => cases v2 <;> exact h
  | arr l => cases v2 <;> exact h

theorem merge_keeps_nondict_lookup :
    ∀ (b a : List (String × Val)) (k : String) (v : Val),
      lookupA a k = some v → isDictV v = false → lookupA (merge a b) k = some v := by
  intro b
  induction b with
  | nil => intro a k v h _; rw [merge_nil]; exact h
  | cons hd rest ih =>
    intro a k v h hnd
    obtain ⟨k2, v2⟩ := hd
    rw [merge_cons]
    by_cases hk : k = k2
    · subst hk
      refine ih _ k v ?_ hnd
      refine lookupA_mergeStep_not_both_dict a k v v2 h ?_
      intro hb
      rw [hnd] at hb
      exact Bool.false_ne_true hb.1
    · exact ih _ k v (by rw [lookupA_mergeStep_ne a k k2 v2 hk]; exact h) hnd

/-- C1: for all nested mappings a and b and every key k bound in a to a
non-mapping (leaf) value, merge(a,b) still binds k to exactly that value:
the Document Merger never removes or overwrites a leaf already present in
the existing document. -/
theorem c1_merge_preserves_existing_leaves (a b : List (String × Val)) (k : String) (v : Val)
    (h : lookupA a k = some v) (hleaf : isDictV v = false) :
    lookupA (merge a b) k = some v :=
  merge_keeps_nondict_lookup b a k v h hleaf

/-- C1 witness: a concrete merge where the incoming document tries to
overwrite the leaf at key k; the existing leaf survives. -/
theorem c1_witness :
    lookupA (merge [("k", Val.str "manual"), ("m", Val.num 1)]
                  [("k", Val.num 7), ("z", Val.str "w")]) "k" = some (Val.str "manual") :=
  c1_merge_preserves_existing_leaves _ _ "k" (Val.str "manual") rfl rfl

theorem merge_lookup_of_key_not_in :
    ∀ (b a : List (String × Val)) (k : String),
      k ∉ b.map Prod.fst → lookupA (merge a b) k = lookupA a k := by
  intro b
  induction b with
  | nil => intro a k _; rw [merge_nil]
  | cons hd rest ih =>
    intro a k hmem
    obtain ⟨k2, v2⟩ := hd
    simp at hmem
    obtain ⟨hne, hrest⟩ := hmem
    have hrest' : k ∉ rest.map Prod.fst := by
      simp
      intro x hx
      exact hrest x hx
    rw [merge_cons, ih _ k hrest', lookupA_mergeStep_ne a k k2 v2 hne]

/-- C10: for every pair of mappings and every key present in both whose
values are not both nested mappings and are unequal -- including the mixed
case where exactly one side is a nested mapping -- merge keeps the value of
d1 at that key completely unchanged (the embedding is total, so no error is
raised in any conflict shape).  The d2 keys are pairwise distinct, as they
are in a Python dict. -/
theorem c10_merge_conflict_keeps_d1 (d1 d2 : List (String × Val)) (k : String) (v1 v2 : Val)
    (h1 : lookupA d1 k = some v1) (h2 : lookupA d2 k = some v2)
    (hnb : ¬(isDictV v1 = true ∧ isDictV v2 = true)) (hne : v1 ≠ v2)
    (hnd : (d2.map Prod.fst).Nodup) :
    lookupA (merge d1 d2) k = some v1 := by
  induction d2 generalizing d1 with
  | nil => simp [lookupA] at h2
  | cons hd rest ih =>
    obtain ⟨k2, u⟩ := hd
    simp at hnd
    obtain ⟨hknotin, hndrest⟩ := hnd
    rw [merge_cons]
    by_cases hk : k = k2
    · subst hk
      have hu : u = v2 := by
        simp [lookupA] at h2
        exact h2
      subst hu
      have hrest : k ∉ rest.map Prod.fst := by
        simp
        intro x hx
        exact hknotin x hx
      rw [merge_lookup_of_key_not_in rest _ k hrest]
      exact lookupA_mergeStep_not_both_dict d1 k v1 u h1 hnb
    · have hk2 : k2 ≠ k := fun he => hk he.symm
      have h2' : lookupA rest k = some v2 := by
        simp only [lookupA, if_neg hk2] at h2
        exact h2
      exact ih (mergeStep d1 k2 u) (by rw [lookupA_mergeStep_ne d1 k k2 u hk]; exact h1) h2' hndrest

/-- C10 witness: a mixed conflict (existing value is a nested mapping, the
incoming value a number); the existing mapping is kept untouched. -/
theorem c10_witness :
    lookupA (merge [("k", Val.dict [("a", Val.num 1)])] [("k", Val.num 5)]) "k"
      = some (Val.dict [("a", Val.num 1)]) :=
  c10_merge_conflict_keeps_d1 _ _ "k" (Val.dict [("a", Val.num 1)]) (Val.num 5)
    rfl rfl (by decide) (fun h => Val.noConfusion h) (by decide)

/-! ### Run Identifier Synthesizer (objectsDB.py, SampleDB._make_sample_run_id)

Python exceptions relevant to the embedded fragments: IndexError from
out-of-range list indexing, TypeError from joining None, KeyError from a
missing dict key.
-/

inductive PyErr where
  | indexError : PyErr
  | typeError : PyErr
  | keyError : PyErr
deriving DecidableEq

/-- Python str.split with a one-character separator: the list of chunks
between occurrences of the separator; always non-empty. -/
def splitOnChar (c : Char) (l : List Char) : List (List Char) :=
  l.foldr
    (fun x acc =>
      if x = c then [] :: acc
      else
        match acc with
        | h :: t => (x :: h) :: t
        | [] => [[x]])
    [[]]

def pySplit (s : String) (c : Char) : List String :=
  (splitOnChar c s.data).map String.mk

/-- Python list indexing: raises IndexError when out of range. -/
def pyIndex {α : Type} (l : List α) (i : Nat) : Except PyErr α :=
  match l.get? i with
  | some x => Except.ok x
  | none => Except.error PyErr.indexError

/-- Python str.strip with a one-character argument: removes that character
from both ends. -/
def stripChar (s : String) (c : Char) : String :=
  String.mk (((s.data.dropWhile (· = c)).reverse.dropWhile (· = c)).reverse)

/-- Embedding of SampleDB._get_barcode: a falsy (absent or empty) reagent
label yields None; otherwise the text after the first opening parenthesis,
stripped of closing parentheses, is taken, and when there is no opening
parenthesis the IndexError is swallowed by the bare except and the raw
label is returned.  Total: the bare except catches everything. -/
def get_barcode (reagent_label : Option String) : Option String :=
  match reagent_label with
  | none => none
  | some s =>
    if s = "" then none
    else
      match (pySplit s '(').get? 1 with
      | some t => some (stripChar t ')')
      | none => some s

/-- Embedding of SampleDB._make_sample_run_id.  Arguments: the prep's
reagent label, the location well string of the sequencing input artifact
(seq_art.location[1]), the sequencing run type name, and the optional
value of the 'Run ID' process UDF.  The lane is the second colon field for
single-lane run types and the first otherwise; the date and flowcell are
underscore fields 0 and 3 of the Run ID.  Only TypeError (absent barcode
joined into the id) is caught by the source; an IndexError from a short
Run ID propagates. -/
def make_sample_run_id (label : Option String) (loc1 : String) (runType : String)
    (runID : Option String) : Except PyErr (Option String) :=
  match (if runType = "46" ∨ runType = "MiSeq Run (MiSeq) 4.0"
         then pyIndex (pySplit loc1 ':') 1 else pyIndex (pySplit loc1 ':') 0) with
  | Except.error e => Except.error e
  | Except.ok lane =>
    match runID with
    | none => Except.ok none
    | some rid =>
      match pyIndex (pySplit rid '_') 0 with
      | Except.error e => Except.error e
      | Except.ok date =>
        match pyIndex (pySplit rid '_') 3 with
        | Except.error e => Except.error e
        | Except.ok fcid =>
          match get_barcode label with
          | none => Except.ok none
          | some bc => Except.ok (some (String.intercalate "_" [lane, date, fcid, bc]))

theorem pySplit_ne_nil (s : String) (c : Char) : pySplit s c ≠ [] := by
  unfold pySplit
  suffices h : splitOnChar c s.data ≠ [] by
    intro he
    exact h (List.map_eq_nil_iff.mp he)
  unfold splitOnChar
  induction s.data with
  | nil => simp
  | cons x rest ih =>
    simp only [List.foldr_cons]
    by_cases hx : x = c
    · simp [hx]
    · simp only [if_neg hx]
      cases hm : rest.foldr _ [[]] with
      | nil => simp
      | cons h t => simp

theorem pyIndex_err_of_le {α : Type} (l : List α) (i : Nat) (h : l.length ≤ i) :
    pyIndex l i = Except.error PyErr.indexError := by
  unfold pyIndex
  rw [List.get?_eq_none.mpr h]

theorem pyIndex_ok_of_lt {α : Type} (l : List α) (i : Nat) (h : i < l.length) :
    ∃ x, pyIndex l i = Except.ok x := by
  unfold pyIndex
  cases hg : l.get? i with
  | none => rw [List.get?_eq_none] at hg; omega
  | some x => exact ⟨x, rfl⟩

/-- C2 counterexample: a Run ID with only two underscore-delimited fields
makes the synthesizer raise an uncaught IndexError (the source catches
only TypeError), instead of resolving the identifier to absent as the
claim states. -/
theorem c2_counterexample :
    make_sample_run_id (some "(AGTC)") "1:2:3" "HiSeq" (some "150101_SN001")
      = Except.error PyErr.indexError := rfl

/-- C2 amended: an absent Run ID or an absent barcode yields an absent
identifier without raising, but a Run ID with fewer than four
underscore-delimited fields raises an IndexError that propagates out of
the synthesizer (dropping the whole record, not just the run).  The lane
hypothesis states that lane extraction itself succeeds, i.e. the location
has a second colon field whenever the run type demands one. -/
theorem c2_run_id_parse_behaviour :
    (∀ (label : Option String) (loc1 runType : String),
        ((runType = "46" ∨ runType = "MiSeq Run (MiSeq) 4.0") → 2 ≤ (pySplit loc1 ':').length) →
        make_sample_run_id label loc1 runType none = Except.ok none)
  ∧ (∀ (label : Option String) (loc1 runType rid : String),
        ((runType = "46" ∨ runType = "MiSeq Run (MiSeq) 4.0") → 2 ≤ (pySplit loc1 ':').length) →
        (pySplit rid '_').length < 4 →
        make_sample_run_id label loc1 runType (some rid) = Except.error PyErr.indexError)
  ∧ (∀ (loc1 runType rid : String),
        ((runType = "46" ∨ runType = "MiSeq Run (MiSeq) 4.0") → 2 ≤ (pySplit loc1 ':').length) →
        4 ≤ (pySplit rid '_').length →
        make_sample_run_id none loc1 runType (some rid) = Except.ok none) := by
  have hlane : ∀ (loc1 runType : String),
      ((runType = "46" ∨ runType = "MiSeq Run (MiSeq) 4.0") → 2 ≤ (pySplit loc1 ':').length) →
      ∃ lane, (if runType = "46" ∨ runType = "MiSeq Run (MiSeq) 4.0"
               then pyIndex (pySplit loc1 ':') 1 else pyIndex (pySplit loc1 ':') 0)
                 = Except.ok lane := by
    intro loc1 runType h
    by_cases hc : runType = "46" ∨ runType = "MiSeq Run (MiSeq) 4.0"
    · rw [if_pos hc]
      exact pyIndex_ok_of_lt _ 1 (by have := h hc; omega)
    · rw [if_neg hc]
      refine pyIndex_ok_of_lt _ 0 ?_
      have := pySplit_ne_nil loc1 ':'
      cases hp : pySplit loc1 ':' with
      | nil => exact absurd hp this
      | cons a t => simp
  refine ⟨?_, ?_, ?_⟩
  · intro label loc1 runType h
    obtain ⟨lane, hl⟩ := hlane loc1 runType h
    simp only [make_sample_run_id, hl]
  · intro label loc1 runType rid h hshort
    obtain ⟨lane, hl⟩ := hlane loc1 runType h
    have hne := pySplit_ne_nil rid '_'
    have h0 : 0 < (pySplit rid '_').length := by
      cases hp : pySplit rid '_' with
      | nil => exact absurd hp hne
      | cons a t => simp
    obtain ⟨date, hd⟩ := pyIndex_ok_of_lt (pySplit rid '_') 0 h0
    have h3 : pyIndex (pySplit rid '_') 3 = Except.error PyErr.indexError :=
      pyIndex_err_of_le _ 3 (by omega)
    simp only [make_sample_run_id, hl, hd, h3]
  · intro loc1 runType rid h hlong
    obtain ⟨lane, hl⟩ := hlane loc1 runType h
    obtain ⟨date, hd⟩ := pyIndex_ok_of_lt (pySplit rid '_') 0 (by omega)
    obtain ⟨fcid, hf⟩ := pyIndex_ok_of_lt (pySplit rid '_') 3 (by omega)
    simp only [make_sample_run_id, hl, hd, hf, get_barcode]

/-- C2 amended witness: the short Run ID branch at concrete inputs. -/
theorem c2_witness :
    make_sample_run_id none "1:2" "46" (some "150101_SN001")
      = Except.error PyErr.indexError :=
  c2_run_id_parse_behaviour.2.1 none "1:2" "46" "150101_SN001" (by decide) (by decide)

/-! ### Top-Level Reducer (objectsDB.py, SampleDB._get_top_level_agrlibval_steps)

The input is the mapping built by the first half of the function: one
entry per aggregate-QC anchor process, tagged with the list of AGRLIBVAL
process ids collected along its artifact history (the ancestry set, with
possible repetitions).  The second half iterates this dict with two nested
.items() views and pops entries whose set of ids is a subset of another
entry's set.  Under CPython, removing an entry from a dict while iterating
it raises RuntimeError at the next iterator advance, and after the pop the
loop body always advances an iterator next, so the first pop inevitably
raises.  The embedding therefore returns an error exactly when the loop
reaches an entry with a non-empty id list that is subset-contained in a
different entry's list, and otherwise returns the mapping unchanged.
-/

def subsetB (l1 l2 : List String) : Bool :=
  l1.all (fun x => l2.contains x)

/-- The inner comparison loop: does any differently-keyed entry of the
dict contain this entry's ancestry ids?  When this holds the source pops
the current entry, and the next iterator advance raises RuntimeError. -/
def tlTrigger (k : String) (l : List String) (d : List (String × List String)) : Bool :=
  d.any (fun kv => !(kv.1 == k) && subsetB l kv.2)

def tlLoop (d : List (String × List String)) :
    List (String × List String) → Except Unit (List (String × List String))
  | [] => Except.ok d
  | (k, l) :: rest =>
    if !l.isEmpty && tlTrigger k l d then Except.error () else tlLoop d rest

def topLevelReduce (d : List (String × List String)) :
    Except Unit (List (String × List String)) :=
  tlLoop d d

/-- Existence of a pop trigger anywhere in the collection: a non-empty
ancestry list subset-contained in a differently-keyed entry's list. -/
def tlBad (d : List (String × List String)) : Prop :=
  ∃ k l k' l', (k, l) ∈ d ∧ (k', l') ∈ d ∧ k' ≠ k ∧ l ≠ [] ∧ subsetB l l' = true

theorem tlTrigger_iff (k : String) (l : List String) (d : List (String × List String)) :
    tlTrigger k l d = true ↔ ∃ k' l', (k', l') ∈ d ∧ k' ≠ k ∧ subsetB l l' = true := by
  unfold tlTrigger
  rw [List.any_eq_true]
  constructor
  · rintro ⟨⟨k', l'⟩, hmem, hcond⟩
    simp at hcond
    exact ⟨k', l', hmem, hcond.1, hcond.2⟩
  · rintro ⟨k', l', hmem, hne, hsub⟩
    refine ⟨(k', l'), hmem, ?_⟩
    simp [hne, hsub]

theorem tlLoop_ok_eq (d : List (String × List String)) :
    ∀ (rest : List (String × List String)) (r : List (String × List String)),
      tlLoop d rest = Except.ok r → r = d := by
  intro rest
  induction rest with
  | nil => intro r h; simpa [tlLoop] using h.symm
  | cons hd tl ih =>
    intro r h
    obtain ⟨k, l⟩ := hd
    unfold tlLoop at h
    by_cases hc : (!l.isEmpty && tlTrigger k l d) = true
    · rw [if_pos hc] at h; cases h
    · rw [if_neg hc] at h; exact ih r h

theorem tlLoop_error_iff (d : List (String × List String)) :
    ∀ (rest : List (String × List String)),
      tlLoop d rest = Except.error () ↔
        ∃ k l, (k, l) ∈ rest ∧ l ≠ [] ∧ tlTrigger k l d = true := by
  intro rest
  induction rest with
  | nil =>
    simp [tlLoop]
  | cons hd tl ih =>
    obtain ⟨k, l⟩ := hd
    unfold tlLoop
    by_cases hc : (!l.isEmpty && tlTrigger k l d) = true
    · rw [if_pos hc]
      simp at hc
      constructor
      · intro _
        refine ⟨k, l, List.mem_cons_self _ _, ?_, hc.2⟩
        intro he
        rw [he] at hc
        simp at hc
      · intro _; rfl
    · rw [if_neg hc]
      rw [ih]
      constructor
      · rintro ⟨k', l', hmem, hne, htr⟩
        exact ⟨k', l', List.mem_cons_of_mem _ hmem, hne, htr⟩
      · rintro ⟨k', l', hmem, hne, htr⟩
        rcases List.mem_cons.mp hmem with heq | hmem'
        · exfalso
          apply hc
          cases heq
          simp [htr]
          exact hne
        · exact ⟨k', l', hmem', hne, htr⟩

theorem topLevelReduce_error_iff (d : List (String × List String)) :
    topLevelReduce d = Except.error () ↔ tlBad d := by
  unfold topLevelReduce tlBad
  rw [tlLoop_error_iff d d]
  constructor
  · rintro ⟨k, l, hmem, hne, htr⟩
    obtain ⟨k', l', hmem', hne', hsub⟩ := (tlTrigger_iff k l d).mp htr
    exact ⟨k, l, k', l', hmem, hmem', hne', hne, hsub⟩
  · rintro ⟨k, l, k', l', hmem, hmem', hne', hne, hsub⟩
    exact ⟨k, l, hmem, hne, (tlTrigger_iff k l d).mpr ⟨k', l', hmem', hne', hsub⟩⟩

theorem topLevelReduce_total (d : List (String × List String)) :
    topLevelReduce d = Except.ok d ∨ topLevelReduce d = Except.error () := by
  cases h : topLevelReduce d with
  | ok r =>
    left
    have e : r = d := tlLoop_ok_eq d d r h
    rw [e]
  | error e =>
    right
    cases e
    rfl

/-- C4 counterexample: with ancestry lists A = [1] properly contained in
B = [1, 2] the reducer raises (RuntimeError from popping during dict
iteration) instead of returning the mapping with A removed; and with two
equal ancestry lists it also raises instead of letting both survive. -/
theorem c4_counterexample :
    topLevelReduce [("A", ["1"]), ("B", ["1", "2"])] = Except.error ()
  ∧ topLevelReduce [("A", ["1"]), ("B", ["1"])] = Except.error () :=
  ⟨rfl, rfl⟩

/-- C4 amended: the reducer never removes anything.  It raises a
RuntimeError exactly when some entry has a non-empty ancestry list that is
subset-contained (equality included) in a differently-keyed entry's list;
otherwise it returns the whole input mapping unchanged.  In particular a
history whose ancestry set is a proper subset of another's is not removed
but crashes the call, and equal ancestry sets also crash the call. -/
theorem c4_reducer_characterisation (d : List (String × List String)) :
    (topLevelReduce d = Except.error () ↔ tlBad d)
  ∧ (¬tlBad d → topLevelReduce d = Except.ok d) := by
  refine ⟨topLevelReduce_error_iff d, ?_⟩
  intro hnb
  rcases topLevelReduce_total d with h | h
  · exact h
  · exact absurd ((topLevelReduce_error_iff d).mp h) hnb

/-- C3: the outcome of the Top-Level Reducer is order-independent: for any
two orderings of the same collection of tagged histories, either both
orderings raise (RuntimeError from the pop during iteration) or both
return, and the returned collections hold exactly the same entries.  The
outcome is a pure function of the subset relation over the ancestry
lists. -/
theorem c3_reducer_order_independent (d1 d2 : List (String × List String))
    (hp : d1.Perm d2) :
    (topLevelReduce d1 = Except.error () ↔ topLevelReduce d2 = Except.error ())
  ∧ (∀ r1 r2, topLevelReduce d1 = Except.ok r1 → topLevelReduce d2 = Except.ok r2 →
      r1.Perm r2) := by
  have hbad : tlBad d1 ↔ tlBad d2 := by
    unfold tlBad
    constructor
    · rintro ⟨k, l, k', l', h1, h2, hne, hl, hs⟩
      exact ⟨k, l, k', l', hp.mem_iff.mp h1, hp.mem_iff.mp h2, hne, hl, hs⟩
    · rintro ⟨k, l, k', l', h1, h2, hne, hl, hs⟩
      exact ⟨k, l, k', l', hp.mem_iff.mpr h1, hp.mem_iff.mpr h2, hne, hl, hs⟩
  constructor
  · rw [topLevelReduce_error_iff, topLevelReduce_error_iff]
    exact hbad
  · intro r1 r2 h1 h2
    have e1 : r1 = d1 := tlLoop_ok_eq d1 d1 r1 h1
    have e2 : r2 = d2 := tlLoop_ok_eq d2 d2 r2 h2
    rw [e1, e2]
    exact hp

/-- C3 witness: two orderings of a trigger-free collection; the theorem
yields that the two surviving collections are permutations of each other. -/
theorem c3_witness :
    ([("A", ["1"]), ("B", ["2"])] : List (String × List String)).Perm
      [("B", ["2"]), ("A", ["1"])] :=
  (c3_reducer_order_independent [("A", ["1"]), ("B", ["2"])] [("B", ["2"]), ("A", ["1"])]
    (by decide)).2 [("A", ["1"]), ("B", ["2"])] [("B", ["2"]), ("A", ["1"])] rfl rfl

/-! ### Process Classifier (objectsDB.py, ProcessSpec)

A process node of a provenance history: the per-process dict carried by
SampleHistory, with its lims id, process type id, run date, input and
output artifact ids and display name.  An absent date or output artifact
is None.
-/

structure ProcNode where
  id : String
  type : String
  date : Option String
  inart : String
  outart : Option String
  name : String
deriving DecidableEq

/-- Modelled from the spec: the Category Catalog of process_categories.py
is not under src/.  Spec section 2 and 6: a fixed mapping from category
name to a set of process-type identifiers, supplied once as configuration.
Each field holds the type-id key set of one category dict; the source
tests membership with: pro['type'] in CATEGORY. -/
structure Catalog where
  INITALQC : List String
  INITALQCFINISHEDLIB : List String
  AGRINITQC : List String
  AGRLIBVAL : List String
  LIBVAL : List String
  LIBVALFINISHEDLIB : List String
  PREPREPSTART : List String
  PREPSTART : List String
  PREPEND : List String
  WORKSET : List String
  SEQSTART : List String
  DILSTART : List String
  POOLING : List String
  DEMULTIPLEX : List String
  SEQUENCING : List String
  CALIPER : List String
deriving DecidableEq

/-- Python truthiness of an optional string: None and the empty string are
falsy. -/
def truthyOpt : Option String → Bool
  | none => false
  | some s => !(s == "")

/-- The accumulator lists of ProcessSpec, one per category, as initialised
in ProcessSpec.__init__. -/
structure WalkLists where
  initialqcends : List ProcNode
  initialqcs : List ProcNode
  preprepstarts : List ProcNode
  prepreplibvals : List ProcNode
  prepreplibvalends : List ProcNode
  libvals : List ProcNode
  libvalends : List ProcNode
  prepstarts : List ProcNode
  prepends : List ProcNode
  worksets : List ProcNode
  seqstarts : List ProcNode
  dilstarts : List ProcNode
  poolingsteps : List ProcNode
  demproc : List ProcNode
  seq : List ProcNode
  caliper_procs : List ProcNode
deriving DecidableEq

def initWalkLists : WalkLists :=
  ⟨[], [], [], [], [], [], [], [], [], [], [], [], [], [], [], []⟩

/-- One artifact step of ProcessSpec._set_prep_processes: the loop body
over one artifact's process dict values, in source order.  The branch
between the pre-prep-validation pair, the finished-library pair and the
normal validation pair reads the preprepstarts accumulated up to and
including this step and the prepends accumulated strictly before it. -/
def stepArt (cat : Catalog) (isFinLib : Bool) (st : WalkLists) (procs : List ProcNode) :
    WalkLists :=
  let agr_qc := if isFinLib then cat.AGRLIBVAL else cat.AGRINITQC
  let init_qc := if isFinLib then cat.INITALQCFINISHEDLIB else cat.INITALQC
  let st1 := { st with
    initialqcends := st.initialqcends ++ procs.filter (fun (p : ProcNode) => agr_qc.contains p.type) }
  let st2 := { st1 with
    initialqcs := st1.initialqcs ++ procs.filter (fun (p : ProcNode) => init_qc.contains p.type) }
  let st3 := { st2 with
    preprepstarts := st2.preprepstarts ++
      procs.filter (fun (p : ProcNode) => cat.PREPREPSTART.contains p.type && truthyOpt p.outart) }
  let st4 :=
    if !st3.preprepstarts.isEmpty && st3.prepends.isEmpty then
      { st3 with
        prepreplibvals := st3.prepreplibvals ++
          procs.filter (fun (p : ProcNode) => cat.LIBVAL.contains p.type),
        prepreplibvalends := st3.prepreplibvalends ++
          procs.filter (fun (p : ProcNode) => cat.AGRLIBVAL.contains p.type) }
    else if isFinLib then
      { st3 with
        libvals := st3.libvals ++
          procs.filter (fun (p : ProcNode) => cat.LIBVALFINISHEDLIB.contains p.type),
        libvalends := st3.libvalends ++
          procs.filter (fun (p : ProcNode) => cat.AGRLIBVAL.contains p.type) }
    else if !st3.prepends.isEmpty then
      { st3 with
        libvals := st3.libvals ++ procs.filter (fun (p : ProcNode) => cat.LIBVAL.contains p.type),
        libvalends := st3.libvalends ++
          procs.filter (fun (p : ProcNode) => cat.AGRLIBVAL.contains p.type) }
    else st3
  let st5 := { st4 with
    prepstarts := st4.prepstarts ++
      procs.filter (fun (p : ProcNode) => cat.PREPSTART.contains p.type && truthyOpt p.outart) }
  let st6 := { st5 with
    prepends := st5.prepends ++
      procs.filter (fun (p : ProcNode) => cat.PREPEND.contains p.type && truthyOpt p.outart) }
  let st7 := { st6 with
    worksets := st6.worksets ++
      procs.filter (fun (p : ProcNode) => cat.WORKSET.contains p.type && truthyOpt p.outart) }
  let st8 := { st7 with
    seqstarts :=
      if st7.seqstarts.isEmpty then
        procs.filter (fun (p : ProcNode) => cat.SEQSTART.contains p.type && truthyOpt p.outart)
      else st7.seqstarts }
  let st9 := { st8 with
    dilstarts :=
      if st8.dilstarts.isEmpty then
        procs.filter (fun (p : ProcNode) => cat.DILSTART.contains p.type && truthyOpt p.outart)
      else st8.dilstarts }
  let st10 := { st9 with
    poolingsteps := st9.poolingsteps ++ procs.filter (fun (p : ProcNode) => cat.POOLING.contains p.type) }
  let st11 := { st10 with
    demproc := st10.demproc ++ procs.filter (fun (p : ProcNode) => cat.DEMULTIPLEX.contains p.type) }
  let st12 := { st11 with
    seq := st11.seq ++ procs.filter (fun (p : ProcNode) => cat.SEQUENCING.contains p.type) }
  { st12 with
    caliper_procs := st12.caliper_procs ++ procs.filter (fun (p : ProcNode) => cat.CALIPER.contains p.type) }

/-- Lexicographic strict order on character lists, matching Python string
comparison by code point. -/
def charListLt : List Char → List Char → Bool
  | [], [] => false
  | [], _ :: _ => true
  | _ :: _, [] => false
  | a :: as, b :: bs =>
    if a.toNat < b.toNat then true
    else if b.toNat < a.toNat then false
    else charListLt as bs

/-- Run-date comparison for representative resolution; an absent date
sorts earliest. -/
def dateLtOpt : Option String → Option String → Bool
  | none, none => false
  | none, some _ => true
  | some _, none => false
  | some a, some b => charListLt a.data b.data

/-- Modelled from the spec: functions.get_last_first is not under src/.
Spec section 4.1, Resolution: reduce a category list to one
representative; the last selection policy picks the latest-positioned
node, the first selection policy the earliest, with ties broken by source
encounter order (stable, earliest encountered wins).  Position is the run
date.  An empty list resolves to none. -/
def get_last_first (l : List ProcNode) (last : Bool) : Option ProcNode :=
  l.foldl
    (fun acc p =>
      match acc with
      | none => some p
      | some q =>
        if last then (if dateLtOpt q.date p.date then some p else some q)
        else (if dateLtOpt p.date q.date then some p else some q))
    none

/-- The full classified history: the category accumulator lists together
with the per-category resolved representatives set at the end of
ProcessSpec._set_prep_processes. -/
structure PSpec where
  walk : WalkLists
  latestCaliper : Option ProcNode
  initialqcend : Option ProcNode
  initialqstart : Option ProcNode
  lastseq : Option ProcNode
  latestdem : Option ProcNode
  workset : Option ProcNode
  libvalstart : Option ProcNode
  libvalend : Option ProcNode
  prepreplibvalend : Option ProcNode
  prepstart : Option ProcNode
  prepend : Option ProcNode
  prepreplibvalstart : Option ProcNode
  preprepstart : Option ProcNode
  firstpoolstep : Option ProcNode
  dilstart : Option ProcNode
  seqstart : Option ProcNode
deriving DecidableEq

def resolveSpec (w : WalkLists) : PSpec :=
  { walk := w
    latestCaliper := get_last_first w.caliper_procs true
    initialqcend := get_last_first w.initialqcends true
    initialqstart := get_last_first w.initialqcs false
    lastseq := get_last_first w.seq true
    latestdem := get_last_first w.demproc true
    workset := get_last_first w.worksets true
    libvalstart := get_last_first w.libvals false
    libvalend := get_last_first w.libvalends true
    prepreplibvalend := get_last_first w.prepreplibvalends true
    prepstart := get_last_first w.prepstarts false
    prepend := get_last_first w.prepends true
    prepreplibvalstart := get_last_first w.prepreplibvals false
    preprepstart := get_last_first w.preprepstarts false
    firstpoolstep := get_last_first w.poolingsteps false
    dilstart := get_last_first w.dilstarts false
    seqstart := get_last_first w.seqstarts false }

/-- Embedding of ProcessSpec construction.  hist maps an artifact id to
the list of process dicts consuming it (hist_sort values in dict order);
histList is the ordered artifact id list.  The source first reverses
hist_list IN PLACE, then walks it; the returned pair is the classified
history together with the state of the caller's list after the call. -/
def classify (cat : Catalog) (hist : List (String × List ProcNode)) (histList : List String)
    (isFinLib : Bool) : PSpec × List String :=
  let rev := histList.reverse
  (resolveSpec
      (rev.foldl (fun st a => stepArt cat isFinLib st ((lookupA hist a).getD [])) initWalkLists),
    rev)

/-- A two-category catalog for concrete classification runs: only
PREPSTART is populated. -/
def cat0 : Catalog :=
  { INITALQC := [], INITALQCFINISHEDLIB := [], AGRINITQC := [], AGRLIBVAL := []
    LIBVAL := [], LIBVALFINISHEDLIB := [], PREPREPSTART := [], PREPSTART := ["PS"]
    PREPEND := [], WORKSET := [], SEQSTART := [], DILSTART := [], POOLING := []
    DEMULTIPLEX := [], SEQUENCING := [], CALIPER := [] }

def histTwoPreps : List (String × List ProcNode) :=
  [("a1", [⟨"p1", "PS", some "2020-01-01", "a1", some "o1", "Prep"⟩]),
   ("a2", [⟨"p2", "PS", some "2020-01-02", "a2", some "o2", "Prep"⟩])]

/-- C5 counterexample: classifying the same two-artifact history twice
does not give the same ClassifiedHistory: the first classification
reverses the shared artifact list in place, so the second walks the
artifacts in the opposite order and accumulates the prep-start list in the
opposite order. -/
theorem c5_counterexample :
    (classify cat0 histTwoPreps (classify cat0 histTwoPreps ["a1", "a2"] false).2 false).1
      ≠ (classify cat0 histTwoPreps ["a1", "a2"] false).1 := by decide

/-- C5 amended: classification applied twice to the same history object
classifies the reversed artifact order the second time; the two
classifications agree exactly on artifact lists equal to their own
reverse, in particular on histories of at most one artifact.  As a pure
function of the artifact-list value, classification is deterministic. -/
theorem c5_classify_twice (cat : Catalog) (hist : List (String × List ProcNode))
    (histList : List String) (isFinLib : Bool) (h : histList.reverse = histList) :
    classify cat hist (classify cat hist histList isFinLib).2 isFinLib
      = classify cat hist histList isFinLib := by
  have h2 : (classify cat hist histList isFinLib).2 = histList := h
  rw [h2]

/-- C5 amended witness: a single-artifact history classifies identically
both times. -/
theorem c5_witness :
    classify cat0 histTwoPreps (classify cat0 histTwoPreps ["a1"] false).2 false
      = classify cat0 histTwoPreps ["a1"] false :=
  c5_classify_twice cat0 histTwoPreps ["a1"] false rfl

/-- Catalog for the mixed validation walk: pre-prep starts, prep ends,
library validation and aggregate validation categories are populated. -/
def cat1 : Catalog :=
  { INITALQC := [], INITALQCFINISHEDLIB := [], AGRINITQC := [], AGRLIBVAL := ["AGR"]
    LIBVAL := ["LV"], LIBVALFINISHEDLIB := [], PREPREPSTART := ["PPS"], PREPSTART := []
    PREPEND := ["PE"], WORKSET := [], SEQSTART := [], DILSTART := [], POOLING := []
    DEMULTIPLEX := [], SEQUENCING := [], CALIPER := [] }

def histMixedVal : List (String × List ProcNode) :=
  [("b1", [⟨"q1", "PPS", some "2020-01-01", "b1", some "ob1", "x"⟩,
           ⟨"q2", "AGR", some "2020-01-02", "b1", some "ob2", "x"⟩]),
   ("b2", [⟨"q3", "PE", some "2020-01-03", "b2", some "ob3", "x"⟩,
           ⟨"q4", "AGR", some "2020-01-04", "b2", some "ob4", "x"⟩]),
   ("b3", [⟨"q5", "AGR", some "2020-01-05", "b3", some "ob5", "x"⟩])]

/-- C6 counterexample: one sample whose walk sees a pre-prep start, then
an aggregate validation, then a prep end, then further aggregate
validations, ends the walk with nodes accumulated in BOTH the validation
list and the pre-prep-validation list, contradicting whole-walk mutual
exclusion. -/
theorem c6_counterexample :
    (classify cat1 histMixedVal ["b3", "b2", "b1"] false).1.walk.libvalends ≠ []
  ∧ (classify cat1 histMixedVal ["b3", "b2", "b1"] false).1.walk.prepreplibvalends ≠ [] := by
  constructor
  · decide
  · decide

/-- C6 amended: the three branches are mutually exclusive per artifact
step, not over the whole walk: every single step leaves the validation
accumulators untouched or the pre-prep-validation accumulators untouched
(the branch condition is re-evaluated from the evolving state, so a walk
that sees a prep-end after a pre-prep start can populate both over its
whole course). -/
theorem c6_step_mutually_exclusive (cat : Catalog) (isFinLib : Bool) (st : WalkLists)
    (procs : List ProcNode) :
    (stepArt cat isFinLib st procs).libvalends = st.libvalends
  ∨ (stepArt cat isFinLib st procs).prepreplibvalends = st.prepreplibvalends := by
  simp only [stepArt]
  split
  · left; rfl
  · split
    · right; rfl
    · split
      · right; rfl
      · left; rfl

/-! ### Prep Letter Assigner (objectsDB.py, SampleDB._get_prep_leter)

The input mapping sends each prep identity key to the prep's dict.  A
Python dict is modelled as an association list with pairwise-distinct
keys; iteration order is insertion order.  Sorting by a key function in
Python raises TypeError when the sort compares values of unorderable
kinds, which with at least two elements happens exactly when some
selected value is not a string (None included); the selected values in
this program are date strings or None.
-/

abbrev PrepDict := List (String × Val)

abbrev PrepEntry := String × PrepDict

def truthyV : Val → Bool
  | Val.null => false
  | Val.str s => !(s == "")
  | Val.num n => !(n == 0)
  | Val.arr l => !l.isEmpty
  | Val.dict d => !d.isEmpty

/-- Modelled from the spec: functions.delete_Nones is not under src/.
Spec sections 3 and 6: absent or None fields are never materialized in
emitted maps; the emitted copy of a mapping omits None-valued keys. -/
def delete_Nones (d : List (String × Val)) : List (String × Val) :=
  d.filter
    (fun kv =>
      match kv.2 with
      | Val.null => false
      | _ => true)

/-- The date the source sorts one prep by: val['pre_prep_start_date'] when
truthy, else val['prep_start_date']; a missing key raises KeyError. -/
def selectedDate (p : PrepDict) : Except PyErr Val :=
  match lookupA p "pre_prep_start_date" with
  | none => Except.error PyErr.keyError
  | some v =>
    if truthyV v then Except.ok v
    else
      match lookupA p "prep_start_date" with
      | none => Except.error PyErr.keyError
      | some w => Except.ok w

/-- The dates dict of the source, kept paired with its entry: one selected
date per prep, in input order. -/
def selDates : List PrepEntry → Except PyErr (List (PrepEntry × Val))
  | [] => Except.ok []
  | e :: rest =>
    match selectedDate e.2, selDates rest with
    | Except.ok d, Except.ok t => Except.ok ((e, d) :: t)
    | Except.error er, _ => Except.error er
    | Except.ok _, Except.error er => Except.error er

def isStrV : Val → Bool
  | Val.str _ => true
  | _ => false

def valKeyStr : Val → String
  | Val.str s => s
  | _ => ""

def dateLe (q1 q2 : PrepEntry × Val) : Prop :=
  valKeyStr q1.2 ≤ valKeyStr q2.2

instance : DecidableRel dateLe :=
  fun q1 q2 => inferInstanceAs (Decidable (valKeyStr q1.2 ≤ valKeyStr q2.2))

instance : IsTotal (PrepEntry × Val) dateLe :=
  ⟨fun a b => le_total (valKeyStr a.2) (valKeyStr b.2)⟩

instance : IsTrans (PrepEntry × Val) dateLe :=
  ⟨fun _ _ _ h1 h2 => le_trans h1 h2⟩

/-- Python sorted() by the selected date: with at most one element no
comparison happens; otherwise all selected values must be strings (a
stable sort, realised by insertion sort) or the first comparison with an
unorderable kind raises TypeError. -/
def pySortDates (ps : List (PrepEntry × Val)) : Except PyErr (List (PrepEntry × Val)) :=
  if ps.length ≤ 1 then Except.ok ps
  else if ps.all (fun q => isStrV q.2) then Except.ok (List.insertionSort dateLe ps)
  else Except.error PyErr.typeError

def prepLetters (n : Nat) : List String :=
  (List.range n).map (fun i => String.mk [Char.ofNat (65 + i)])

/-- Embedding of SampleDB._get_prep_leter (source spelling kept): exactly
one prep is labeled A unconditionally without reading any date and
without delete_Nones; otherwise the preps are sorted by selected date and
assigned letters A, B, C, ... in sorted order, each prep dict emitted
through delete_Nones (keyed lookup of prep_info[key] is realised by
keeping each entry paired with its date, equivalent for the distinct keys
of a Python dict). -/
def getPrepLeter (prep_info : List PrepEntry) : Except PyErr (List PrepEntry) :=
  if prep_info.length = 1 then
    Except.ok [("A", (prep_info.headD ("", [])).2)]
  else
    match selDates prep_info with
    | Except.error er => Except.error er
    | Except.ok ps =>
      match pySortDates ps with
      | Except.error er => Except.error er
      | Except.ok sortedps =>
        Except.ok ((prepLetters prep_info.length).zip
          (sortedps.map (fun q => delete_Nones q.1.2)))

/-- The selected date string of an entry, for stating sortedness. -/
def selKey (e : PrepEntry) : String :=
  match selectedDate e.2 with
  | Except.ok v => valKeyStr v
  | Except.error _ => ""

theorem selDates_eq_of_all_ok (d : List PrepEntry)
    (h : ∀ e ∈ d, ∃ s, selectedDate e.2 = Except.ok (Val.str s)) :
    selDates d = Except.ok (d.map (fun e => (e, Val.str (selKey e)))) := by
  induction d with
  | nil => rfl
  | cons e rest ih =>
    obtain ⟨s, hs⟩ := h e (List.mem_cons_self e rest)
    have hrest := ih (fun x hx => h x (List.mem_cons_of_mem e hx))
    have hk : selKey e = s := by unfold selKey; rw [hs]; rfl
    unfold selDates
    rw [hs, hrest]
    simp only [List.map_cons]
    rw [hk]

theorem sorted_perm_eq_of_inj_keys {α : Type} (key : α → String) :
    ∀ (l1 l2 : List α), l1.Perm l2 →
      List.Sorted (fun a b => key a ≤ key b) l1 →
      List.Sorted (fun a b => key a ≤ key b) l2 →
      (l1.map key).Nodup → l1 = l2 := by
  intro l1
  induction l1 with
  | nil => intro l2 hp _ _ _; exact hp.nil_eq
  | cons a t ih =>
    intro l2 hp hs1 hs2 hnd
    cases l2 with
    | nil => exact absurd hp.symm.nil_eq (by simp)
    | cons b t2 =>
      have hab : a = b := by
        by_contra hne
        have hain : a ∈ b :: t2 := hp.mem_iff.mp (List.mem_cons_self a t)
        have hbin : b ∈ a :: t := hp.mem_iff.mpr (List.mem_cons_self b t2)
        have hat2 : a ∈ t2 := by
          rcases List.mem_cons.mp hain with h | h
          · exact absurd h hne
          · exact h
        have hbt : b ∈ t := by
          rcases List.mem_cons.mp hbin with h | h
          · exact absurd h.symm hne
          · exact h
        have h1 : key a ≤ key b := (List.sorted_cons.mp hs1).1 b hbt
        have h2 : key b ≤ key a := (List.sorted_cons.mp hs2).1 a hat2
        have hkeq : key a = key b := le_antisymm h1 h2
        simp at hnd
        exact hnd.1 b hbt hkeq.symm
      subst hab
      have hp' : t.Perm t2 := hp.cons_inv
      have hnd' : (t.map key).Nodup := by simp at hnd; exact hnd.2
      rw [ih t2 hp' (List.sorted_cons.mp hs1).2 (List.sorted_cons.mp hs2).2 hnd']

theorem getPrepLeter_nil : getPrepLeter [] = Except.ok [] := rfl

theorem pySortDates_of_strs (d : List PrepEntry) (h2 : 2 ≤ d.length) :
    pySortDates (d.map (fun e => (e, Val.str (selKey e))))
      = Except.ok (List.insertionSort dateLe (d.map (fun e => (e, Val.str (selKey e))))) := by
  unfold pySortDates
  rw [if_neg (by simp; omega)]
  rw [if_pos]
  rw [List.all_eq_true]
  intro q hq
  obtain ⟨e, _, he⟩ := List.mem_map.mp hq
  rw [← he]
  rfl

theorem getPrepLeter_multi (d : List PrepEntry)
    (hall : ∀ e ∈ d, ∃ s, selectedDate e.2 = Except.ok (Val.str s))
    (h2 : 2 ≤ d.length) :
    getPrepLeter d = Except.ok ((prepLetters d.length).zip
      ((List.insertionSort dateLe (d.map (fun e => (e, Val.str (selKey e))))).map
        (fun q => delete_Nones q.1.2))) := by
  unfold getPrepLeter
  rw [if_neg (by omega)]
  rw [selDates_eq_of_all_ok d hall]
  dsimp only
  rw [pySortDates_of_strs d h2]

/-- C9: the Prep Letter Assigner.  Part one: a single prep is labeled A
unconditionally, with no date read and no error, even when all its dates
are absent.  Part two: when every prep has a selected date string (the
pre-prep start date when truthy, else the prep start date) and there are
several preps, the output assigns the letters A, B, C, ... in ascending
order of selected date: the output keys are exactly the first n letters in
order and the output values are the prep dicts (through delete_Nones)
arranged sorted by selected date.  Part three: with pairwise-distinct
selected dates the result is independent of the input order. -/
theorem c9_prep_letter_assignment :
    (∀ (k : String) (v : PrepDict), getPrepLeter [(k, v)] = Except.ok [("A", v)])
  ∧ (∀ (d : List PrepEntry) (r : List PrepEntry),
        (∀ e ∈ d, ∃ s, selectedDate e.2 = Except.ok (Val.str s)) →
        2 ≤ d.length →
        getPrepLeter d = Except.ok r →
        ∃ es : List PrepEntry, es.Perm d ∧
          List.Sorted (fun e1 e2 => selKey e1 ≤ selKey e2) es ∧
          r.map Prod.fst = prepLetters d.length ∧
          r.map Prod.snd = es.map (fun e => delete_Nones e.2))
  ∧ (∀ (d d' : List PrepEntry),
        d.Perm d' →
        (∀ e ∈ d, ∃ s, selectedDate e.2 = Except.ok (Val.str s)) →
        (d.map selKey).Nodup →
        getPrepLeter d = getPrepLeter d') := by
  refine ⟨?_, ?_, ?_⟩
  · intro k v; rfl
  · intro d r hall h2 hr
    rw [getPrepLeter_multi d hall h2] at hr
    cases hr
    set sorted := List.insertionSort dateLe (d.map (fun e => (e, Val.str (selKey e))))
      with hsdef
    have hperm : sorted.Perm (d.map (fun e => (e, Val.str (selKey e)))) :=
      List.perm_insertionSort dateLe _
    have hlength : sorted.length = d.length := by
      have := hperm.length_eq
      simpa using this
    have hkeys : ∀ q ∈ sorted, q.2 = Val.str (selKey q.1) := by
      intro q hq
      have : q ∈ d.map (fun e => (e, Val.str (selKey e))) := hperm.mem_iff.mp hq
      obtain ⟨e, _, he⟩ := List.mem_map.mp this
      rw [← he]
    refine ⟨sorted.map Prod.fst, ?_, ?_, ?_, ?_⟩
    · have h2m := hperm.map Prod.fst
      have heq : (d.map (fun e => (e, Val.str (selKey e)))).map Prod.fst = d := by
        rw [List.map_map]
        exact List.map_id' d
      rw [heq] at h2m
      exact h2m
    · have hs := List.sorted_insertionSort dateLe (d.map (fun e => (e, Val.str (selKey e))))
      rw [← hsdef] at hs
      have hs' : sorted.Pairwise (fun q1 q2 => selKey q1.1 ≤ selKey q2.1) := by
        refine List.Pairwise.imp_of_mem ?_ hs
        intro q1 q2 h1 h2' hle'
        unfold dateLe at hle'
        rw [hkeys q1 h1, hkeys q2 h2'] at hle'
        exact hle'
      unfold List.Sorted
      rw [List.pairwise_map]
      exact hs'
    · rw [List.map_fst_zip]
      rw [List.length_map, hlength, prepLetters, List.length_map, List.length_range]
    · rw [List.map_snd_zip]
      · rw [List.map_map]
        rfl
      · rw [List.length_map, hlength, prepLetters, List.length_map, List.length_range]
  · intro d d' hp hall hnd
    have hall' : ∀ e ∈ d', ∃ s, selectedDate e.2 = Except.ok (Val.str s) :=
      fun e he => hall e (hp.mem_iff.mpr he)
    cases d with
    | nil =>
      rw [← hp.nil_eq]
    | cons e1 t1 =>
      cases t1 with
      | nil =>
        rw [List.perm_singleton.mp hp.symm]
      | cons e2 t2 =>
        have h2 : 2 ≤ (e1 :: e2 :: t2).length := by
          show 2 ≤ t2.length + 1 + 1
          omega
        have h2' : 2 ≤ d'.length := by
          have := hp.length_eq
          omega
        rw [getPrepLeter_multi _ hall h2, getPrepLeter_multi _ hall' h2']
        have hlen : (e1 :: e2 :: t2).length = d'.length := hp.length_eq
        rw [hlen]
        have hkeymap : ∀ (l : List PrepEntry),
            (l.map (fun e => (e, Val.str (selKey e)))).map (fun q => valKeyStr q.2)
              = l.map selKey := by
          intro l
          rw [List.map_map]
          rfl
        have hsorteq :
            List.insertionSort dateLe
                ((e1 :: e2 :: t2).map (fun e => (e, Val.str (selKey e))))
              = List.insertionSort dateLe (d'.map (fun e => (e, Val.str (selKey e)))) := by
          refine sorted_perm_eq_of_inj_keys (fun q => valKeyStr q.2) _ _ ?_ ?_ ?_ ?_
          · exact ((List.perm_insertionSort dateLe _).trans
              (hp.map (fun e => (e, Val.str (selKey e))))).trans
              (List.perm_insertionSort dateLe _).symm
          · exact List.sorted_insertionSort dateLe _
          · exact List.sorted_insertionSort dateLe _
          · have hp1 := (List.perm_insertionSort dateLe
              ((e1 :: e2 :: t2).map (fun e => (e, Val.str (selKey e))))).map
                (fun q => valKeyStr q.2)
            rw [hkeymap (e1 :: e2 :: t2)] at hp1
            exact hp1.nodup_iff.mpr hnd
        rw [hsorteq]

/-- C9 witness: the spec's concrete scenario, with pre-prep start dates
January, March, February: supplying the first two preps in either order
gives the identical letter assignment. -/
theorem c9_witness :
    getPrepLeter
        [("p1", [("pre_prep_start_date", Val.str "2020-01-01")]),
         ("p2", [("pre_prep_start_date", Val.str "2020-03-01")]),
         ("p3", [("pre_prep_start_date", Val.str "2020-02-01")])]
      = getPrepLeter
        [("p2", [("pre_prep_start_date", Val.str "2020-03-01")]),
         ("p1", [("pre_prep_start_date", Val.str "2020-01-01")]),
         ("p3", [("pre_prep_start_date", Val.str "2020-02-01")])] :=
  c9_prep_letter_assignment.2.2
    [("p1", [("pre_prep_start_date", Val.str "2020-01-01")]),
     ("p2", [("pre_prep_start_date", Val.str "2020-03-01")]),
     ("p3", [("pre_prep_start_date", Val.str "2020-02-01")])]
    [("p2", [("pre_prep_start_date", Val.str "2020-03-01")]),
     ("p1", [("pre_prep_start_date", Val.str "2020-01-01")]),
     ("p3", [("pre_prep_start_date", Val.str "2020-02-01")])]
    (List.Perm.swap _ _ _)
    (by intro e he
        fin_cases he
        · exact ⟨"2020-01-01", rfl⟩
        · exact ⟨"2020-03-01", rfl⟩
        · exact ⟨"2020-02-01", rfl⟩)
    (by decide)

/-! ### Validation record builder (objectsDB.py, Prep._get_lib_val_info)

The loop builds one record per aggregate-validation end step.  The source
binds library_validation = self.lib_val_templ without copying, so every
iteration mutates the one template dict allocated in Prep.__init__; the
embedding threads that single dict through the loop as state.  LIMS
lookups (Artifact and Process fetches) are supplied as environments.
delete_Nones is applied to a snapshot of the current template state when
a record is stored, and to the record map on return.
-/

structure ArtInfo where
  loc1 : String
  qc_flag : String
  reagent_labels : List String
  udfs : List (String × Val)

structure OutInfo where
  name : String
  sampleNames : List String
  qc_flag : String
  reagent_labels : List String

structure ProcInfo where
  initials : String
  date_run : Option String
  outputs : List OutInfo

/-- Python substring containment: needle in hay. -/
def substrB (needle hay : String) : Bool :=
  hay.data.tails.any (fun t => needle.data.isPrefixOf t)

/-- Modelled from the spec: statusdb udf_dict is not under src/.  Spec
section 3: a process or artifact carries an arbitrary key-to-value
attribute map; the emitted keys are in statusdb form, lowercased with
spaces as underscores (the source reads back size_(bp) for the UDF named
Size (bp)). -/
def udfKey (k : String) : String :=
  (String.map Char.toLower k).replace " " "_"

def udf_dict (a : ArtInfo) : List (String × Val) :=
  a.udfs.map (fun kv => (udfKey kv.1, kv.2))

/-- Modelled from the spec: functions.get_caliper_img is not under src/.
Spec section 3: the caliper-image-ref of a validation record is a
reference to the caliper result image, determined by the sample and the
caliper process. -/
def get_caliper_img (sample : String) (pid : String) : String :=
  sample ++ "_" ++ pid

/-- The shared validation-record template allocated once per Prep
(Prep.__init__, lib_val_templ). -/
def libValTempl : List (String × Val) :=
  [("start_date", Val.null), ("finish_date", Val.null), ("well_location", Val.null),
   ("prep_status", Val.null), ("reagent_labels", Val.null), ("average_size_bp", Val.null),
   ("initials", Val.null), ("caliper_image", Val.null)]

def optDateVal : Option String → Val
  | none => Val.null
  | some d => Val.str d

/-- The shared start date: libvalstart['date'] with the bare except
turning an absent libvalstart into None. -/
def lvStartDate (libvalstart : Option ProcNode) : Val :=
  match libvalstart with
  | none => Val.null
  | some p => optDateVal p.date

/-- Stage one of the _get_lib_val_info loop body on the shared template
dict, in source order: conditional finish date, shared start date,
input-artifact fields, and the udf merge. -/
def lvTemplFields (a : ArtInfo) (sd : Val) (t0 : List (String × Val)) (s : ProcNode) :
    List (String × Val) :=
  let t1 := match s.date with
            | some d => insertA t0 "finish_date" (Val.str d)
            | none => t0
  let t2 := insertA t1 "start_date" sd
  let t3 := insertA t2 "well_location" (Val.str a.loc1)
  let t4 := insertA t3 "prep_status" (Val.str a.qc_flag)
  let t5 := insertA t4 "reagent_labels" (Val.arr (a.reagent_labels.map Val.str))
  updateAList t5 (udf_dict a)

/-- The NeoPrep special case: overwrites the start date with the step's
own date, fixes the concentration units, reads the normalized
concentration UDF (KeyError when absent) and takes status and labels from
the matching output artifact. -/
def lvNeo (sample : String) (procEnv : String → ProcInfo) (a : ArtInfo)
    (t6 : List (String × Val)) (s : ProcNode) : Except PyErr (List (String × Val)) :=
  if substrB "NeoPrep" s.name then
    let t7 := insertA t6 "start_date" (optDateVal s.date)
    let t8 := insertA t7 "conc_units" (Val.str "nM")
    match lookupA a.udfs "Normalized conc. (nM)" with
    | none => Except.error PyErr.keyError
    | some c =>
      let t9 := insertA t8 "concentration" c
      Except.ok ((procEnv s.id).outputs.foldl
        (fun t o =>
          if sample ∈ o.sampleNames ∧ o.name = sample then
            insertA (insertA t "prep_status" (Val.str o.qc_flag)) "reagent_labels"
              (Val.arr (o.reagent_labels.map Val.str))
          else t) t9)
  else Except.ok t6

/-- Technician initials when truthy, then the size_(bp) rename. -/
def lvInitialsSize (ini : String) (t10 : List (String × Val)) : List (String × Val) :=
  let t11 := if ini == "" then t10 else insertA t10 "initials" (Val.str ini)
  match lookupA t11 "size_(bp)" with
  | some v => insertA (eraseFirst t11 "size_(bp)") "average_size_bp" v
  | none => t11

/-- The caliper image, guarded by the run-date comparison: subscripting an
absent libvalstart raises TypeError and so does comparing absent run
dates. -/
def lvCaliper (sample : String) (procEnv : String → ProcInfo)
    (libvalstart latestCaliper : Option ProcNode) (t12 : List (String × Val)) :
    Except PyErr (List (String × Val)) :=
  match latestCaliper with
  | none => Except.ok t12
  | some c =>
    match libvalstart with
    | none => Except.error PyErr.typeError
    | some ls =>
      match (procEnv c.id).date_run, (procEnv ls.id).date_run with
      | some dc, some dl =>
        Except.ok (if charListLt dc.data dl.data then t12
                   else insertA t12 "caliper_image" (Val.str (get_caliper_img sample c.id)))
      | _, _ => Except.error PyErr.typeError

/-- One iteration of the _get_lib_val_info loop body on the shared
template dict, in source order. -/
def lvStep (sample : String) (artEnv : String → ArtInfo) (procEnv : String → ProcInfo)
    (sd : Val) (libvalstart : Option ProcNode) (latestCaliper : Option ProcNode)
    (t0 : List (String × Val)) (s : ProcNode) : Except PyErr (List (String × Val)) :=
  match lvNeo sample procEnv (artEnv s.inart) (lvTemplFields (artEnv s.inart) sd t0 s) s with
  | Except.error e => Except.error e
  | Except.ok t10 =>
    lvCaliper sample procEnv libvalstart latestCaliper
      (lvInitialsSize (procEnv s.id).initials t10)

def lvLoop (sample : String) (artEnv : String → ArtInfo) (procEnv : String → ProcInfo)
    (sd : Val) (libvalstart : Option ProcNode) (latestCaliper : Option ProcNode) :
    List ProcNode → List (String × Val) → List (String × Val) →
      Except PyErr (List (String × Val) × List (String × Val))
  | [], out, t => Except.ok (delete_Nones out, t)
  | s :: rest, out, t =>
    match lvStep sample artEnv procEnv sd libvalstart latestCaliper t s with
    | Except.error e => Except.error e
    | Except.ok t' =>
      lvLoop sample artEnv procEnv sd libvalstart latestCaliper rest
        (insertA out s.id (Val.dict (delete_Nones t'))) t'

/-- Embedding of Prep._get_lib_val_info: the record map keyed by end-step
id, together with the final state of the shared template dict. -/
def get_lib_val_info (sample : String) (artEnv : String → ArtInfo)
    (procEnv : String → ProcInfo) (steps : List ProcNode)
    (libvalstart latestCaliper : Option ProcNode) (templ : List (String × Val)) :
    Except PyErr (List (String × Val) × List (String × Val)) :=
  lvLoop sample artEnv procEnv (lvStartDate libvalstart) libvalstart latestCaliper steps [] templ

def keysNodup {α : Type} (d : List (String × α)) : Prop :=
  (d.map Prod.fst).Nodup

theorem lookupA_cons_self {α : Type} (k : String) (v : α) (tl : List (String × α)) :
    lookupA ((k, v) :: tl) k = some v := by
  unfold lookupA
  rw [if_pos rfl]

theorem lookupA_cons_ne {α : Type} (k1 : String) (v : α) (tl : List (String × α)) (k : String)
    (h : k1 ≠ k) : lookupA ((k1, v) :: tl) k = lookupA tl k := by
  have he : lookupA ((k1, v) :: tl) k = if k1 = k then some v else lookupA tl k := rfl
  rw [he, if_neg h]

theorem lookupA_eq_none_of_not_mem {α : Type} (d : List (String × α)) (k : String)
    (h : k ∉ d.map Prod.fst) : lookupA d k = none := by
  induction d with
  | nil => rfl
  | cons hd tl ih =>
    obtain ⟨k1, v1⟩ := hd
    have hne : k1 ≠ k := by
      intro he
      exact h (by rw [List.map_cons, he]; exact List.mem_cons_self k _)
    rw [lookupA_cons_ne k1 v1 tl k hne]
    refine ih ?_
    intro hm
    exact h (by rw [List.map_cons]; exact List.mem_cons_of_mem _ hm)

theorem lookupA_isSome_of_mem {α : Type} (d : List (String × α)) (k : String)
    (h : k ∈ d.map Prod.fst) : (lookupA d k).isSome := by
  induction d with
  | nil => simp at h
  | cons hd tl ih =>
    obtain ⟨k1, v1⟩ := hd
    by_cases hk : k1 = k
    · subst hk
      rw [lookupA_cons_self]
      rfl
    · rw [lookupA_cons_ne k1 v1 tl k hk]
      rw [List.map_cons] at h
      rcases List.mem_cons.mp h with h | h
      · exact absurd h.symm hk
      · exact ih h

theorem mem_of_lookupA_isSome {α : Type} (d : List (String × α)) (k : String)
    (h : (lookupA d k).isSome) : k ∈ d.map Prod.fst := by
  by_contra hmem
  rw [lookupA_eq_none_of_not_mem d k hmem] at h
  simp at h

theorem contains_iff_mem_keys {α : Type} (d : List (String × α)) (k : String) :
    (d.map Prod.fst).contains k = true ↔ k ∈ d.map Prod.fst := by
  simp [List.contains]

theorem lookupA_updateFirst_self {α : Type} (d : List (String × α)) (k : String) (v : α)
    (h : k ∈ d.map Prod.fst) : lookupA (updateFirst d k v) k = some v := by
  induction d with
  | nil => simp at h
  | cons hd tl ih =>
    obtain ⟨k1, v1⟩ := hd
    unfold updateFirst
    by_cases hk : k1 = k
    · rw [if_pos hk]
      subst hk
      exact lookupA_cons_self k1 v tl
    · rw [if_neg hk]
      rw [lookupA_cons_ne k1 v1 _ k hk]
      rw [List.map_cons] at h
      rcases List.mem_cons.mp h with h | h
      · exact absurd h.symm hk
      · exact ih h

theorem lookupA_append_singleton_self {α : Type} (d : List (String × α)) (k : String) (v : α)
    (h : lookupA d k = none) : lookupA (d ++ [(k, v)]) k = some v := by
  induction d with
  | nil => exact lookupA_cons_self k v []
  | cons hd tl ih =>
    obtain ⟨k1, v1⟩ := hd
    by_cases hk : k1 = k
    · subst hk
      rw [lookupA_cons_self] at h
      cases h
    · rw [lookupA_cons_ne k1 v1 tl k hk] at h
      rw [List.cons_append, lookupA_cons_ne k1 v1 _ k hk]
      exact ih h

theorem lookupA_insertA_self {α : Type} (d : List (String × α)) (k : String) (v : α) :
    lookupA (insertA d k v) k = some v := by
  unfold insertA
  by_cases hc : (d.map Prod.fst).contains k = true
  · rw [if_pos hc]
    exact lookupA_updateFirst_self d k v ((contains_iff_mem_keys d k).mp hc)
  · rw [if_neg hc]
    refine lookupA_append_singleton_self d k v ?_
    refine lookupA_eq_none_of_not_mem d k ?_
    intro hmem
    exact hc ((contains_iff_mem_keys d k).mpr hmem)

theorem lookupA_insertA_ne {α : Type} (d : List (String × α)) (k k' : String) (v : α)
    (h : k' ≠ k) : lookupA (insertA d k v) k' = lookupA d k' := by
  unfold insertA
  by_cases hc : (d.map Prod.fst).contains k = true
  · rw [if_pos hc]
    exact lookupA_updateFirst_ne d k' k v h
  · rw [if_neg hc]
    exact lookupA_append_ne d k' k v h

theorem map_fst_updateFirst {α : Type} (d : List (String × α)) (k : String) (v : α) :
    (updateFirst d k v).map Prod.fst = d.map Prod.fst := by
  induction d with
  | nil => rfl
  | cons hd tl ih =>
    obtain ⟨k1, v1⟩ := hd
    unfold updateFirst
    by_cases hk : k1 = k
    · rw [if_pos hk]
      simp
    · rw [if_neg hk]
      simp [ih]

theorem keysNodup_insertA {α : Type} (d : List (String × α)) (k : String) (v : α)
    (h : keysNodup d) : keysNodup (insertA d k v) := by
  unfold insertA keysNodup
  by_cases hc : (d.map Prod.fst).contains k = true
  · rw [if_pos hc, map_fst_updateFirst]
    exact h
  · rw [if_neg hc]
    rw [List.map_append]
    refine List.Nodup.append h (List.nodup_singleton k) ?_
    intro x hx hx2
    simp at hx2
    subst hx2
    exact hc ((contains_iff_mem_keys d x).mpr hx)

theorem lookupA_updateAList_ne {α : Type} (e : List (String × α)) (d : List (String × α))
    (k : String) (h : ∀ kv ∈ e, kv.1 ≠ k) :
    lookupA (updateAList d e) k = lookupA d k := by
  induction e generalizing d with
  | nil => rfl
  | cons kv rest ih =>
    have hstep : lookupA (insertA d kv.1 kv.2) k = lookupA d k := by
      refine lookupA_insertA_ne d kv.1 k kv.2 ?_
      intro he
      exact h kv (List.mem_cons_self kv rest) he.symm
    have hrec := ih (insertA d kv.1 kv.2) (fun x hx => h x (List.mem_cons_of_mem kv hx))
    unfold updateAList at hrec ⊢
    rw [List.foldl_cons]
    rw [hrec, hstep]

theorem keysNodup_updateAList {α : Type} (e : List (String × α)) (d : List (String × α))
    (h : keysNodup d) : keysNodup (updateAList d e) := by
  induction e generalizing d with
  | nil => exact h
  | cons kv rest ih =>
    unfold updateAList
    rw [List.foldl_cons]
    exact ih (insertA d kv.1 kv.2) (keysNodup_insertA d kv.1 kv.2 h)

theorem lookupA_eraseFirst_ne {α : Type} (d : List (String × α)) (k k' : String)
    (h : k' ≠ k) : lookupA (eraseFirst d k) k' = lookupA d k' := by
  induction d with
  | nil => rfl
  | cons hd tl ih =>
    obtain ⟨k1, v1⟩ := hd
    unfold eraseFirst
    by_cases hk : k1 = k
    · rw [if_pos hk]
      rw [lookupA_cons_ne k1 v1 tl k' (by rw [hk]; exact fun he => h he.symm)]
    · rw [if_neg hk]
      by_cases hk2 : k1 = k'
      · subst hk2
        rw [lookupA_cons_self, lookupA_cons_self]
      · rw [lookupA_cons_ne k1 v1 _ k' hk2, lookupA_cons_ne k1 v1 tl k' hk2, ih]

theorem eraseFirst_sublist {α : Type} (d : List (String × α)) (k : String) :
    (eraseFirst d k).Sublist d := by
  induction d with
  | nil => exact List.Sublist.refl []
  | cons hd tl ih =>
    obtain ⟨k1, v1⟩ := hd
    unfold eraseFirst
    by_cases hk : k1 = k
    · rw [if_pos hk]
      exact List.sublist_cons_self (k1, v1) tl
    · rw [if_neg hk]
      exact List.Sublist.cons₂ (k1, v1) ih

theorem keysNodup_eraseFirst {α : Type} (d : List (String × α)) (k : String)
    (h : keysNodup d) : keysNodup (eraseFirst d k) :=
  List.Nodup.sublist (List.Sublist.map Prod.fst (eraseFirst_sublist d k)) h

def nonNull : Val → Option Val
  | Val.null => none
  | v => some v

theorem delete_Nones_sublist (d : List (String × Val)) : (delete_Nones d).Sublist d :=
  List.filter_sublist d

theorem delete_Nones_cons_null (k1 : String) (tl : List (String × Val)) :
    delete_Nones ((k1, Val.null) :: tl) = delete_Nones tl := rfl

theorem lookupA_delete_Nones (d : List (String × Val)) (k : String) (h : keysNodup d) :
    lookupA (delete_Nones d) k = (lookupA d k).bind nonNull := by
  induction d with
  | nil => rfl
  | cons hd tl ih =>
    obtain ⟨k1, v1⟩ := hd
    unfold keysNodup at h
    rw [List.map_cons, List.nodup_cons] at h
    obtain ⟨hnotin, hnd⟩ := h
    have ihh := ih hnd
    by_cases hk : k1 = k
    · subst hk
      cases v1 with
      | null =>
        rw [delete_Nones_cons_null, lookupA_cons_self]
        have hnone : lookupA (delete_Nones tl) k1 = none := by
          refine lookupA_eq_none_of_not_mem _ k1 ?_
          intro hmem
          exact hnotin ((List.Sublist.map Prod.fst (delete_Nones_sublist tl)).subset hmem)
        rw [hnone]
        rfl
      | str s₀ =>
        show lookupA ((k1, Val.str s₀) :: delete_Nones tl) k1 = _
        rw [lookupA_cons_self, lookupA_cons_self]
        rfl
      | num n =>
        show lookupA ((k1, Val.num n) :: delete_Nones tl) k1 = _
        rw [lookupA_cons_self, lookupA_cons_self]
        rfl
      | arr l =>
        show lookupA ((k1, Val.arr l) :: delete_Nones tl) k1 = _
        rw [lookupA_cons_self, lookupA_cons_self]
        rfl
      | dict dd =>
        show lookupA ((k1, Val.dict dd) :: delete_Nones tl) k1 = _
        rw [lookupA_cons_self, lookupA_cons_self]
        rfl
    · cases v1 with
      | null =>
        rw [delete_Nones_cons_null, lookupA_cons_ne k1 Val.null tl k hk, ihh]
      | str s₀ =>
        show lookupA ((k1, Val.str s₀) :: delete_Nones tl) k = _
        rw [lookupA_cons_ne _ _ _ k hk, lookupA_cons_ne _ _ _ k hk, ihh]
      | num n =>
        show lookupA ((k1, Val.num n) :: delete_Nones tl) k = _
        rw [lookupA_cons_ne _ _ _ k hk, lookupA_cons_ne _ _ _ k hk, ihh]
      | arr l =>
        show lookupA ((k1, Val.arr l) :: delete_Nones tl) k = _
        rw [lookupA_cons_ne _ _ _ k hk, lookupA_cons_ne _ _ _ k hk, ihh]
      | dict dd =>
        show lookupA ((k1, Val.dict dd) :: delete_Nones tl) k = _
        rw [lookupA_cons_ne _ _ _ k hk, lookupA_cons_ne _ _ _ k hk, ihh]

theorem delete_Nones_eq_self_of_dicts (d : List (String × Val))
    (h : ∀ kv ∈ d, isDictV kv.2 = true) : delete_Nones d = d := by
  unfold delete_Nones
  refine List.filter_eq_self.mpr ?_
  intro kv hkv
  have hd := h kv hkv
  cases hv : kv.2 with
  | null => rw [hv] at hd; simp [isDictV] at hd
  | str s₀ => rfl
  | num n => rfl
  | arr l => rfl
  | dict dd => rfl

theorem udf_dict_keys_ne (a : ArtInfo) (k : String)
    (h : ∀ kv ∈ a.udfs, udfKey kv.1 ≠ k) : ∀ kv ∈ udf_dict a, kv.1 ≠ k := by
  intro kv hkv
  obtain ⟨kv0, h0, he⟩ := List.mem_map.mp hkv
  rw [← he]
  exact h kv0 h0

theorem lvTemplFields_start (a : ArtInfo) (sd : Val) (t : List (String × Val)) (s : ProcNode)
    (hud : ∀ kv ∈ a.udfs, udfKey kv.1 ≠ "start_date") :
    lookupA (lvTemplFields a sd t s) "start_date" = some sd := by
  simp only [lvTemplFields]
  rw [lookupA_updateAList_ne _ _ _ (udf_dict_keys_ne a _ hud)]
  rw [lookupA_insertA_ne _ _ _ _ (by decide)]
  rw [lookupA_insertA_ne _ _ _ _ (by decide)]
  rw [lookupA_insertA_ne _ _ _ _ (by decide)]
  exact lookupA_insertA_self _ "start_date" sd

theorem lvTemplFields_finish (a : ArtInfo) (sd : Val) (t : List (String × Val)) (s : ProcNode)
    (d : String) (hd : s.date = some d)
    (hud : ∀ kv ∈ a.udfs, udfKey kv.1 ≠ "finish_date") :
    lookupA (lvTemplFields a sd t s) "finish_date" = some (Val.str d) := by
  simp only [lvTemplFields, hd]
  rw [lookupA_updateAList_ne _ _ _ (udf_dict_keys_ne a _ hud)]
  rw [lookupA_insertA_ne _ _ _ _ (by decide)]
  rw [lookupA_insertA_ne _ _ _ _ (by decide)]
  rw [lookupA_insertA_ne _ _ _ _ (by decide)]
  rw [lookupA_insertA_ne _ _ _ _ (by decide)]
  exact lookupA_insertA_self _ "finish_date" (Val.str d)

theorem lvTemplFields_nodup (a : ArtInfo) (sd : Val) (t : List (String × Val)) (s : ProcNode)
    (h : keysNodup t) : keysNodup (lvTemplFields a sd t s) := by
  simp only [lvTemplFields]
  cases hd : s.date with
  | none =>
    exact keysNodup_updateAList _ _ (keysNodup_insertA _ _ _ (keysNodup_insertA _ _ _
      (keysNodup_insertA _ _ _ (keysNodup_insertA _ _ _ h))))
  | some d =>
    exact keysNodup_updateAList _ _ (keysNodup_insertA _ _ _ (keysNodup_insertA _ _ _
      (keysNodup_insertA _ _ _ (keysNodup_insertA _ _ _ (keysNodup_insertA _ _ _ h)))))

theorem lvNeo_not_taken (sample : String) (procEnv : String → ProcInfo) (a : ArtInfo)
    (t6 : List (String × Val)) (s : ProcNode) (hneo : substrB "NeoPrep" s.name = false) :
    lvNeo sample procEnv a t6 s = Except.ok t6 := by
  simp [lvNeo, hneo]

theorem lvInitialsSize_lookup_ne (ini : String) (t : List (String × Val)) (k' : String)
    (h1 : k' ≠ "initials") (h2 : k' ≠ "average_size_bp") (h3 : k' ≠ "size_(bp)") :
    lookupA (lvInitialsSize ini t) k' = lookupA t k' := by
  simp only [lvInitialsSize]
  by_cases hi : (ini == "") = true
  · rw [if_pos hi]
    cases hs : lookupA t "size_(bp)" with
    | none => rfl
    | some v =>
      rw [lookupA_insertA_ne _ _ _ _ h2]
      exact lookupA_eraseFirst_ne _ _ _ h3
  · rw [if_neg hi]
    cases hs : lookupA (insertA t "initials" (Val.str ini)) "size_(bp)" with
    | none => exact lookupA_insertA_ne _ _ _ _ h1
    | some v =>
      rw [lookupA_insertA_ne _ _ _ _ h2]
      rw [lookupA_eraseFirst_ne _ _ _ h3]
      exact lookupA_insertA_ne _ _ _ _ h1

theorem lvInitialsSize_nodup (ini : String) (t : List (String × Val)) (h : keysNodup t) :
    keysNodup (lvInitialsSize ini t) := by
  simp only [lvInitialsSize]
  by_cases hi : (ini == "") = true
  · rw [if_pos hi]
    cases hs : lookupA t "size_(bp)" with
    | none => exact h
    | some v => exact keysNodup_insertA _ _ _ (keysNodup_eraseFirst _ _ h)
  · rw [if_neg hi]
    cases hs : lookupA (insertA t "initials" (Val.str ini)) "size_(bp)" with
    | none => exact keysNodup_insertA _ _ _ h
    | some v =>
      exact keysNodup_insertA _ _ _ (keysNodup_eraseFirst _ _ (keysNodup_insertA _ _ _ h))

theorem lvStep_plain (sample : String) (artEnv : String → ArtInfo)
    (procEnv : String → ProcInfo) (sd : Val) (libvalstart : Option ProcNode)
    (t : List (String × Val)) (s : ProcNode)
    (hneo : substrB "NeoPrep" s.name = false) :
    lvStep sample artEnv procEnv sd libvalstart none t s
      = Except.ok (lvInitialsSize (procEnv s.id).initials
          (lvTemplFields (artEnv s.inart) sd t s)) := by
  unfold lvStep
  rw [lvNeo_not_taken sample procEnv _ _ s hneo]
  rfl

theorem insertA_eq_append_of_not_mem {α : Type} (d : List (String × α)) (k : String) (v : α)
    (h : k ∉ d.map Prod.fst) : insertA d k v = d ++ [(k, v)] := by
  unfold insertA
  rw [if_neg (fun hc => h ((contains_iff_mem_keys d k).mp hc))]

theorem lvLoop_spec (sample : String) (artEnv : String → ArtInfo) (procEnv : String → ProcInfo)
    (sd : Val) (libvalstart : Option ProcNode) :
    ∀ (steps : List ProcNode) (out t : List (String × Val)),
      (∀ s ∈ steps, s.date.isSome) →
      (∀ s ∈ steps, substrB "NeoPrep" s.name = false) →
      (∀ s ∈ steps, ∀ kv ∈ (artEnv s.inart).udfs,
        udfKey kv.1 ≠ "finish_date" ∧ udfKey kv.1 ≠ "start_date") →
      (steps.map ProcNode.id).Nodup →
      (∀ s ∈ steps, s.id ∉ out.map Prod.fst) →
      keysNodup t →
      (∀ kv ∈ out, isDictV kv.2 = true) →
      ∃ m t', lvLoop sample artEnv procEnv sd libvalstart none steps out t
          = Except.ok (m, t')
        ∧ m.map Prod.fst = out.map Prod.fst ++ steps.map ProcNode.id
        ∧ (∀ k, k ∈ out.map Prod.fst → lookupA m k = lookupA out k)
        ∧ (∀ s ∈ steps, ∃ r, lookupA m s.id = some (Val.dict r)
            ∧ lookupA r "finish_date" = s.date.map Val.str
            ∧ lookupA r "start_date" = nonNull sd) := by
  intro steps
  induction steps with
  | nil =>
    intro out t _ _ _ _ _ _ hdicts
    refine ⟨out, t, ?_, by simp, fun k _ => rfl, by simp⟩
    unfold lvLoop
    rw [delete_Nones_eq_self_of_dicts out hdicts]
  | cons s rest ih =>
    intro out t hdates hneo hud hnodup hfresh hndt hdicts
    have hstep := lvStep_plain sample artEnv procEnv sd libvalstart t s
      (hneo s (List.mem_cons_self s rest))
    set t' := lvInitialsSize (procEnv s.id).initials (lvTemplFields (artEnv s.inart) sd t s)
      with ht'
    have hndt' : keysNodup t' :=
      lvInitialsSize_nodup _ _ (lvTemplFields_nodup _ _ _ _ hndt)
    have hsid : s.id ∉ out.map Prod.fst := hfresh s (List.mem_cons_self s rest)
    have hout' : insertA out s.id (Val.dict (delete_Nones t'))
        = out ++ [(s.id, Val.dict (delete_Nones t'))] :=
      insertA_eq_append_of_not_mem out s.id _ hsid
    have hkeys' : (insertA out s.id (Val.dict (delete_Nones t'))).map Prod.fst
        = out.map Prod.fst ++ [s.id] := by
      rw [hout', List.map_append]
      rfl
    rw [List.map_cons, List.nodup_cons] at hnodup
    obtain ⟨hsid_rest, hnodup_rest⟩ := hnodup
    have hfresh' : ∀ s' ∈ rest, s'.id ∉
        (insertA out s.id (Val.dict (delete_Nones t'))).map Prod.fst := by
      intro s' hs'
      rw [hkeys']
      intro hmem
      rcases List.mem_append.mp hmem with h | h
      · exact hfresh s' (List.mem_cons_of_mem s hs') h
      · simp at h
        exact hsid_rest (h ▸ List.mem_map_of_mem ProcNode.id hs')
    have hdicts' : ∀ kv ∈ insertA out s.id (Val.dict (delete_Nones t')),
        isDictV kv.2 = true := by
      intro kv hkv
      rw [hout'] at hkv
      rcases List.mem_append.mp hkv with h | h
      · exact hdicts kv h
      · simp at h
        rw [h]
        rfl
    obtain ⟨m, t'', heq, hkeys, hold, hrec⟩ := ih
      (insertA out s.id (Val.dict (delete_Nones t'))) t'
      (fun x hx => hdates x (List.mem_cons_of_mem s hx))
      (fun x hx => hneo x (List.mem_cons_of_mem s hx))
      (fun x hx => hud x (List.mem_cons_of_mem s hx))
      hnodup_rest hfresh' hndt' hdicts'
    refine ⟨m, t'', ?_, ?_, ?_, ?_⟩
    · unfold lvLoop
      rw [hstep]
      exact heq
    · rw [hkeys, hkeys', List.map_cons, List.append_assoc]
      rfl
    · intro k hk
      have hk' : k ∈ (insertA out s.id (Val.dict (delete_Nones t'))).map Prod.fst := by
        rw [hkeys']
        exact List.mem_append_left _ hk
      rw [hold k hk', hout']
      exact lookupA_append_of_isSome out _ k (lookupA_isSome_of_mem out k hk)
    · intro x hx
      rcases List.mem_cons.mp hx with hxs | hxr
      · subst hxs
        have hx_in : x.id ∈ (insertA out x.id (Val.dict (delete_Nones t'))).map Prod.fst := by
          rw [hkeys']
          exact List.mem_append_right _ (List.mem_singleton.mpr rfl)
        have hlook : lookupA m x.id = some (Val.dict (delete_Nones t')) := by
          rw [hold x.id hx_in, hout']
          exact lookupA_append_singleton_self out x.id _
            (lookupA_eq_none_of_not_mem out x.id hsid)
        obtain ⟨d, hd⟩ := Option.isSome_iff_exists.mp (hdates x (List.mem_cons_self x rest))
        have hud_x := hud x (List.mem_cons_self x rest)
        refine ⟨delete_Nones t', hlook, ?_, ?_⟩
        · rw [lookupA_delete_Nones t' "finish_date" hndt']
          rw [ht']
          rw [lvInitialsSize_lookup_ne _ _ _ (by decide) (by decide) (by decide)]
          rw [lvTemplFields_finish _ _ _ _ d hd (fun kv hkv => (hud_x kv hkv).1)]
          rw [hd]
          rfl
        · rw [lookupA_delete_Nones t' "start_date" hndt']
          rw [ht']
          rw [lvInitialsSize_lookup_ne _ _ _ (by decide) (by decide) (by decide)]
          rw [lvTemplFields_start _ _ _ _ (fun kv hkv => (hud_x kv hkv).2)]
          rfl
      · exact hrec x hxr

theorem nonNull_lvStartDate (libvalstart : Option ProcNode) :
    nonNull (lvStartDate libvalstart) = (libvalstart.bind ProcNode.date).map Val.str := by
  cases libvalstart with
  | none => rfl
  | some p =>
    cases hd : p.date with
    | none => simp [lvStartDate, optDateVal, hd, nonNull, Option.bind]
    | some d => simp [lvStartDate, optDateVal, hd, nonNull, Option.bind]

/-- C7 amended: one record per validation-end step, keyed by its process
id; the records are per-iteration snapshots of the one shared template
dict, so when every end step has its own run date, each stored record
carries its own finish date together with the single shared start date.
(Without a date on some step, that record inherits the previous
iteration's finish date from the shared template instead, as the
counterexample shows.)  Hypotheses: no NeoPrep steps, distinct step ids,
no caliper process, and artifact UDFs that do not collide with the
start/finish fields. -/
theorem c7_validation_records (sample : String) (artEnv : String → ArtInfo)
    (procEnv : String → ProcInfo) (steps : List ProcNode) (libvalstart : Option ProcNode)
    (hdates : ∀ s ∈ steps, s.date.isSome)
    (hneo : ∀ s ∈ steps, substrB "NeoPrep" s.name = false)
    (hud : ∀ s ∈ steps, ∀ kv ∈ (artEnv s.inart).udfs,
      udfKey kv.1 ≠ "finish_date" ∧ udfKey kv.1 ≠ "start_date")
    (hnodup : (steps.map ProcNode.id).Nodup) :
    ∃ m t', get_lib_val_info sample artEnv procEnv steps libvalstart none libValTempl
        = Except.ok (m, t')
      ∧ m.map Prod.fst = steps.map ProcNode.id
      ∧ (∀ s ∈ steps, ∃ r, lookupA m s.id = some (Val.dict r)
          ∧ lookupA r "finish_date" = s.date.map Val.str
          ∧ lookupA r "start_date" = (libvalstart.bind ProcNode.date).map Val.str) := by
  obtain ⟨m, t', heq, hkeys, _, hrec⟩ := lvLoop_spec sample artEnv procEnv
    (lvStartDate libvalstart) libvalstart steps [] libValTempl
    hdates hneo hud hnodup (by simp) (by unfold keysNodup; decide) (by simp)
  refine ⟨m, t', heq, by simpa using hkeys, ?_⟩
  intro s hs
  obtain ⟨r, h1, h2, h3⟩ := hrec s hs
  exact ⟨r, h1, h2, by rw [h3, nonNull_lvStartDate]⟩

def lvSteps : List ProcNode :=
  [⟨"LV1", "AGR", some "2020-01-01", "a1", none, "Aggregate QC"⟩,
   ⟨"LV2", "AGR", none, "a2", none, "Aggregate QC"⟩]

def lvArtEnv : String → ArtInfo := fun _ => ⟨"A:1", "PASSED", ["idx1"], []⟩

def lvProcEnv : String → ProcInfo := fun _ => ⟨"", none, []⟩

def lvStart : Option ProcNode := some ⟨"LS1", "LV", some "2019-12-01", "a0", none, "LibVal"⟩

/-- C7 counterexample: with two validation-end steps where the second has
no run date of its own, the second record nevertheless carries the FIRST
step's finish date, leaked through the shared template dict that the loop
mutates in place, where an independent record would carry no finish date
at all (absent fields are omitted). -/
theorem c7_counterexample :
    ((get_lib_val_info "S1" lvArtEnv lvProcEnv lvSteps lvStart none libValTempl).toOption.bind
        (fun pr => lookupA pr.1 "LV2"))
      = some (Val.dict
          [("start_date", Val.str "2019-12-01"), ("finish_date", Val.str "2020-01-01"),
           ("well_location", Val.str "A:1"), ("prep_status", Val.str "PASSED"),
           ("reagent_labels", Val.arr [Val.str "idx1"])])
  ∧ ((lvSteps.get? 1).bind ProcNode.date) = none :=
  ⟨rfl, rfl⟩

/-- C7 amended witness: two dated validation-end steps at concrete inputs;
each record exists under its own id with its own finish date and the
shared start date. -/
theorem c7_witness :
    ∃ m t', get_lib_val_info "S1" lvArtEnv lvProcEnv
        [⟨"LV1", "AGR", some "2020-01-01", "a1", none, "Aggregate QC"⟩,
         ⟨"LV2", "AGR", some "2020-01-05", "a2", none, "Aggregate QC"⟩]
        lvStart none libValTempl = Except.ok (m, t')
      ∧ m.map Prod.fst = ["LV1", "LV2"]
      ∧ (∀ s ∈ [(⟨"LV1", "AGR", some "2020-01-01", "a1", none, "Aggregate QC"⟩ : ProcNode),
                ⟨"LV2", "AGR", some "2020-01-05", "a2", none, "Aggregate QC"⟩],
          ∃ r, lookupA m s.id = some (Val.dict r)
            ∧ lookupA r "finish_date" = s.date.map Val.str
            ∧ lookupA r "start_date" = (lvStart.bind ProcNode.date).map Val.str) :=
  c7_validation_records "S1" lvArtEnv lvProcEnv
    [⟨"LV1", "AGR", some "2020-01-01", "a1", none, "Aggregate QC"⟩,
     ⟨"LV2", "AGR", some "2020-01-05", "a2", none, "Aggregate QC"⟩]
    lvStart (by decide) (by decide) (by decide) (by decide)

/-! ### Document Differ (LIMS2DB/diff.py, diff_objects)

The differ walks two nested mappings.  The value universe here is the one
the differ's branches discriminate on: numbers, strings and nested
string-keyed mappings (isinstance dict / equality / containment /
iteration / subscription each behave differently per kind).  Python dict
equality is order-insensitive; comparing values of different kinds is
False.  Containment, iteration and subscription on a number raise
TypeError; containment in a string is substring search, iterating a
string yields its characters, and subscripting a string with a string key
raises TypeError.  The diffs dict is built by Python dict assignment
(insert or replace) and dict.update.
-/

inductive DVal where
  | num : Int → DVal
  | str : String → DVal
  | dict : List (String × DVal) → DVal

abbrev DEntry := String × (DVal × DVal)

mutual
/-- Python == on the modelled values: numbers and strings by value, dicts
as unordered key-value maps, cross-kind comparison False. -/
def dBeq : DVal → DVal → Bool
  | DVal.num a, DVal.num b => a == b
  | DVal.str a, DVal.str b => a == b
  | DVal.dict a, DVal.dict b => (a.length == b.length) && dictSubBeq a b
  | DVal.num _, DVal.str _ => false
  | DVal.num _, DVal.dict _ => false
  | DVal.str _, DVal.num _ => false
  | DVal.str _, DVal.dict _ => false
  | DVal.dict _, DVal.num _ => false
  | DVal.dict _, DVal.str _ => false
termination_by v _ => sizeOf v
decreasing_by all_goals simp_wf <;> omega

/-- Every entry of the first dict is matched by the second dict. -/
def dictSubBeq : List (String × DVal) → List (String × DVal) → Bool
  | [], _ => true
  | (k, v) :: rest, b =>
    (match lookupA b k with
     | some w => dBeq v w
     | none => false) && dictSubBeq rest b
termination_by l _ => sizeOf l
decreasing_by all_goals simp_wf <;> omega
end

def truthyD : DVal → Bool
  | DVal.num n => !(n == 0)
  | DVal.str s => !(s == "")
  | DVal.dict d => !d.isEmpty

/-- Python: k in v. -/
def pyInKey (k : String) : DVal → Except PyErr Bool
  | DVal.dict d => Except.ok ((d.map Prod.fst).contains k)
  | DVal.str s => Except.ok (substrB k s)
  | DVal.num _ => Except.error PyErr.typeError

/-- Python: v[k] with a string key. -/
def pyGetKey (k : String) : DVal → Except PyErr DVal
  | DVal.dict d =>
    match lookupA d k with
    | some v => Except.ok v
    | none => Except.error PyErr.keyError
  | DVal.str _ => Except.error PyErr.typeError
  | DVal.num _ => Except.error PyErr.typeError

/-- Python: the keys yielded by iterating v. -/
def pyIterKeys : DVal → Except PyErr (List String)
  | DVal.dict d => Except.ok (d.map Prod.fst)
  | DVal.str s => Except.ok (s.data.map (fun c => String.mk [c]))
  | DVal.num _ => Except.error PyErr.typeError

/-- The second loop of diff_objects: keys of o2 not in o1 with truthy
values are reported as missing from o1. -/
def diffLoop2 : List String → List String → DVal → String → List DEntry →
    Except PyErr (List DEntry)
  | [], _, _, _, diffs => Except.ok diffs
  | k :: rest, keys1, o2, parent, diffs =>
    if keys1.contains k then diffLoop2 rest keys1 o2 parent diffs
    else
      match pyGetKey k o2 with
      | Except.error e => Except.error e
      | Except.ok v =>
        if truthyD v then
          diffLoop2 rest keys1 o2 parent
            (insertA diffs ("key " ++ parent ++ " " ++ k) (DVal.str "missing", v))
        else diffLoop2 rest keys1 o2 parent diffs

mutual
/-- The first loop of diff_objects over o1's entries: common nested dicts
recurse (folding the reported diffs in with dict.update), common leaves
are compared, keys missing from o2 with truthy values are reported. -/
def diffLoop1 : List (String × DVal) → DVal → String → List DEntry →
    Except PyErr (List DEntry)
  | [], _, _, diffs => Except.ok diffs
  | (k, v) :: rest, o2, parent, diffs =>
    match pyInKey k o2 with
    | Except.error e => Except.error e
    | Except.ok b =>
      if b then
        match v with
        | DVal.dict dv =>
          match pyGetKey k o2 with
          | Except.error e => Except.error e
          | Except.ok o2k =>
            match diffObjects dv o2k (parent ++ " " ++ k) with
            | Except.error e => Except.error e
            | Except.ok more => diffLoop1 rest o2 parent (updateAList diffs more)
        | DVal.num n =>
          match pyGetKey k o2 with
          | Except.error e => Except.error e
          | Except.ok o2k =>
            if dBeq (DVal.num n) o2k then diffLoop1 rest o2 parent diffs
            else diffLoop1 rest o2 parent
              (insertA diffs (parent ++ " " ++ k) (DVal.num n, o2k))
        | DVal.str s =>
          match pyGetKey k o2 with
          | Except.error e => Except.error e
          | Except.ok o2k =>
            if dBeq (DVal.str s) o2k then diffLoop1 rest o2 parent diffs
            else diffLoop1 rest o2 parent
              (insertA diffs (parent ++ " " ++ k) (DVal.str s, o2k))
      else
        if truthyD v then
          diffLoop1 rest o2 parent
            (insertA diffs ("key " ++ parent ++ " " ++ k) (v, DVal.str "missing"))
        else diffLoop1 rest o2 parent diffs
termination_by l _ _ _ => (sizeOf l, 0)
decreasing_by all_goals simp_wf <;> omega

/-- Embedding of diff_objects: o1 is always a dict at every call site (the
top level passes two documents, and the recursion only descends when
o1[key] is a dict); o2 is arbitrary. -/
def diffObjects (o1 : List (String × DVal)) (o2 : DVal) (parent : String) :
    Except PyErr (List DEntry) :=
  match diffLoop1 o1 o2 parent [] with
  | Except.error e => Except.error e
  | Except.ok diffs =>
    match pyIterKeys o2 with
    | Except.error e => Except.error e
    | Except.ok ks => diffLoop2 ks (o1.map Prod.fst) o2 parent diffs
termination_by (sizeOf o1, 1)
decreasing_by all_goals simp_wf <;> omega
end

/-- The differ as called on two documents. -/
def diff_objects (o1 o2 : List (String × DVal)) (parent : String) :
    Except PyErr (List DEntry) :=
  diffObjects o1 (DVal.dict o2) parent

unseal dBeq dictSubBeq

unseal diffLoop1 diffObjects

set_option maxRecDepth 4000 in
/-- C8 counterexample: on the pair of trees a = (k -> (x -> 1)) and
b = (k -> 2), diff(a,b) raises a TypeError (the recursion tests
membership in the number 2), while diff(b,a) returns a one-entry report;
the two directions do not report the same set of differing paths. -/
theorem c8_counterexample :
    diff_objects [("k", DVal.dict [("x", DVal.num 1)])] [("k", DVal.num 2)] ""
        = Except.error PyErr.typeError
  ∧ diff_objects [("k", DVal.num 2)] [("k", DVal.dict [("x", DVal.num 1)])] ""
        = Except.ok [(" k", (DVal.num 2, DVal.dict [("x", DVal.num 1)]))] := by
  constructor
  · rfl
  · rfl

/-! #### Well-formed, aligned and space-free trees

The amended claim holds on documents whose dicts have distinct keys
(wfD), whose common keys carry values of matching shape at every level
(alignedB: no dict on one side facing a leaf on the other, which is what
the counterexample exploits), and whose keys contain no spaces (distinct
key paths can otherwise collide in the flat string encoding of paths).
-/

def keyNodupB : List String → Bool
  | [] => true
  | k :: rest => !(rest.contains k) && keyNodupB rest

mutual
def wfD : DVal → Bool
  | DVal.dict d => keyNodupB (d.map Prod.fst) && wfEntries d
  | DVal.num _ => true
  | DVal.str _ => true
termination_by v => sizeOf v
decreasing_by all_goals simp_wf <;> omega

def wfEntries : List (String × DVal) → Bool
  | [] => true
  | (_, v) :: rest => wfD v && wfEntries rest
termination_by l => sizeOf l
decreasing_by all_goals simp_wf <;> omega
end

mutual
def alignedB : DVal → DVal → Bool
  | DVal.dict a, DVal.dict b => alignedEntries a b
  | DVal.dict _, DVal.num _ => false
  | DVal.dict _, DVal.str _ => false
  | DVal.num _, DVal.dict _ => false
  | DVal.str _, DVal.dict _ => false
  | DVal.num _, DVal.num _ => true
  | DVal.num _, DVal.str _ => true
  | DVal.str _, DVal.num _ => true
  | DVal.str _, DVal.str _ => true
termination_by v _ => sizeOf v
decreasing_by all_goals simp_wf <;> omega

def alignedEntries : List (String × DVal) → List (String × DVal) → Bool
  | [], _ => true
  | (k, v) :: rest, b =>
    (match lookupA b k with
     | some w => alignedB v w
     | none => true) && alignedEntries rest b
termination_by l _ => sizeOf l
decreasing_by all_goals simp_wf <;> omega
end

def spaceFreeStr (s : String) : Bool :=
  !(s.data.contains ' ')

mutual
def spaceFreeD : DVal → Bool
  | DVal.dict d => spaceFreeEntries d
  | DVal.num _ => true
  | DVal.str _ => true
termination_by v => sizeOf v
decreasing_by all_goals simp_wf <;> omega

def spaceFreeEntries : List (String × DVal) → Bool
  | [] => true
  | (k, v) :: rest => spaceFreeStr k && spaceFreeD v && spaceFreeEntries rest
termination_by l => sizeOf l
decreasing_by all_goals simp_wf <;> omega
end

/-! #### Emission form of the differ

On inputs where the differ cannot crash, its result is an append of
freshly keyed reports; the E functions build that list directly, so the
diffs-dict insertions can be related to plain appends.
-/

/-- The reports of the second loop, in emission order. -/
def ELoop2E : List (String × DVal) → List String → String → List DEntry
  | [], _, _ => []
  | (k, w) :: rest, keys1, parent =>
    (if keys1.contains k then []
     else if truthyD w then
       [("key " ++ parent ++ " " ++ k, (DVal.str "missing", w))]
     else [])
    ++ ELoop2E rest keys1 parent

mutual
/-- The reports contributed by one entry (k, v) of o1 in the first loop. -/
def EChunk (o2 : List (String × DVal)) (parent k : String) (v : DVal) :
    List DEntry :=
  match lookupA o2 k with
  | none =>
    if truthyD v then [("key " ++ parent ++ " " ++ k, (v, DVal.str "missing"))]
    else []
  | some w =>
    match v, w with
    | DVal.dict dv, DVal.dict dw => EDiff dv dw (parent ++ " " ++ k)
    | DVal.dict dv, DVal.num m =>
      if dBeq (DVal.dict dv) (DVal.num m) then []
      else [(parent ++ " " ++ k, (DVal.dict dv, DVal.num m))]
    | DVal.dict dv, DVal.str s =>
      if dBeq (DVal.dict dv) (DVal.str s) then []
      else [(parent ++ " " ++ k, (DVal.dict dv, DVal.str s))]
    | DVal.num n, DVal.dict dw =>
      if dBeq (DVal.num n) (DVal.dict dw) then []
      else [(parent ++ " " ++ k, (DVal.num n, DVal.dict dw))]
    | DVal.str s, DVal.dict dw =>
      if dBeq (DVal.str s) (DVal.dict dw) then []
      else [(parent ++ " " ++ k, (DVal.str s, DVal.dict dw))]
    | DVal.num n, DVal.num m =>
      if dBeq (DVal.num n) (DVal.num m) then []
      else [(parent ++ " " ++ k, (DVal.num n, DVal.num m))]
    | DVal.num n, DVal.str s =>
      if dBeq (DVal.num n) (DVal.str s) then []
      else [(parent ++ " " ++ k, (DVal.num n, DVal.str s))]
    | DVal.str s, DVal.num m =>
      if dBeq (DVal.str s) (DVal.num m) then []
      else [(parent ++ " " ++ k, (DVal.str s, DVal.num m))]
    | DVal.str s, DVal.str u =>
      if dBeq (DVal.str s) (DVal.str u) then []
      else [(parent ++ " " ++ k, (DVal.str s, DVal.str u))]
termination_by (sizeOf v, 0)
decreasing_by all_goals simp_wf <;> omega

/-- The reports of the first loop, in emission order. -/
def ELoop1 : List (String × DVal) → List (String × DVal) → String → List DEntry
  | [], _, _ => []
  | (k, v) :: rest, o2, parent => EChunk o2 parent k v ++ ELoop1 rest o2 parent
termination_by l _ _ => (sizeOf l, 1)
decreasing_by all_goals simp_wf <;> omega

/-- All reports of diff_objects on a dict pair, in emission order. -/
def EDiff (o1 o2 : List (String × DVal)) (parent : String) : List DEntry :=
  ELoop1 o1 o2 parent ++ ELoop2E o2 (o1.map Prod.fst) parent
termination_by (sizeOf o1, 2)
decreasing_by all_goals simp_wf <;> omega
end

theorem beq_comm_eq {α : Type} [BEq α] [LawfulBEq α] (a b : α) : (a == b) = (b == a) := by
  by_cases h : a = b
  · subst h
    rfl
  · have h1 : (a == b) = false := beq_eq_false_iff_ne.mpr h
    have h2 : (b == a) = false := beq_eq_false_iff_ne.mpr (Ne.symm h)
    rw [h1, h2]

theorem keyNodupB_iff (l : List String) : keyNodupB l = true ↔ l.Nodup := by
  induction l with
  | nil => simp [keyNodupB]
  | cons k rest ih =>
    simp [keyNodupB, ih, List.nodup_cons]

theorem mem_pair_of_lookupA_some {α : Type} (d : List (String × α)) (k : String) (v : α)
    (h : lookupA d k = some v) : (k, v) ∈ d := by
  induction d with
  | nil => cases h
  | cons hd tl ih =>
    obtain ⟨k1, v1⟩ := hd
    by_cases hk : k1 = k
    · subst hk
      rw [lookupA_cons_self] at h
      cases h
      exact List.mem_cons_self _ _
    · rw [lookupA_cons_ne k1 v1 tl k hk] at h
      exact List.mem_cons_of_mem _ (ih h)

theorem lookupA_of_mem_nodup {α : Type} (d : List (String × α)) (k : String) (v : α)
    (hnd : (d.map Prod.fst).Nodup) (h : (k, v) ∈ d) : lookupA d k = some v := by
  induction d with
  | nil => cases h
  | cons hd tl ih =>
    obtain ⟨k1, v1⟩ := hd
    rw [List.map_cons, List.nodup_cons] at hnd
    rcases List.mem_cons.mp h with h | h
    · cases h
      exact lookupA_cons_self k v tl
    · have hk : k1 ≠ k := by
        intro he
        subst he
        exact hnd.1 (List.mem_map.mpr ⟨(k1, v), h, rfl⟩)
      rw [lookupA_cons_ne k1 v1 tl k hk]
      exact ih hnd.2 h

theorem updateAList_eq_append {α : Type} (e : List (String × α)) :
    ∀ d : List (String × α), (∀ k ∈ e.map Prod.fst, k ∉ d.map Prod.fst) →
    (e.map Prod.fst).Nodup → updateAList d e = d ++ e := by
  induction e with
  | nil => intro d _ _; simp [updateAList]
  | cons kv rest ih =>
    intro d hdisj hnd
    obtain ⟨k, v⟩ := kv
    rw [List.map_cons, List.nodup_cons] at hnd
    have hstep : updateAList d ((k, v) :: rest) = updateAList (insertA d k v) rest := rfl
    have hki : k ∉ d.map Prod.fst :=
      hdisj k (by rw [List.map_cons]; exact List.mem_cons_self _ _)
    rw [hstep, insertA_eq_append_of_not_mem d k v hki]
    rw [ih (d ++ [(k, v)]) ?_ hnd.2]
    · simp
    · intro k2 hk2 hk2mem
      rw [List.map_append, List.mem_append] at hk2mem
      rcases hk2mem with hm | hm
      · exact hdisj k2 (by rw [List.map_cons]; exact List.mem_cons_of_mem _ hk2) hm
      · simp at hm
        subst hm
        exact hnd.1 hk2

theorem spaceFree_not_mem (s : String) (h : spaceFreeStr s = true) : ' ' ∉ s.data := by
  unfold spaceFreeStr at h
  rw [Bool.not_eq_true'] at h
  intro hm
  rw [List.contains_eq_any_beq] at h
  have : s.data.any (' ' == ·) = true := List.any_eq_true.mpr ⟨' ', hm, by simp⟩
  rw [this] at h
  cases h

theorem wfD_dict (d : List (String × DVal)) (h : wfD (DVal.dict d) = true) :
    (d.map Prod.fst).Nodup ∧ wfEntries d = true := by
  rw [wfD, Bool.and_eq_true] at h
  exact ⟨(keyNodupB_iff _).mp h.1, h.2⟩

theorem wfEntries_mem (d : List (String × DVal)) (k : String) (v : DVal)
    (hw : wfEntries d = true) (hm : (k, v) ∈ d) : wfD v = true := by
  induction d with
  | nil => cases hm
  | cons hd tl ih =>
    obtain ⟨k1, v1⟩ := hd
    rw [wfEntries, Bool.and_eq_true] at hw
    rcases List.mem_cons.mp hm with h | h
    · cases h
      exact hw.1
    · exact ih hw.2 h

theorem spaceFreeEntries_mem (d : List (String × DVal)) (k : String) (v : DVal)
    (hs : spaceFreeEntries d = true) (hm : (k, v) ∈ d) :
    spaceFreeStr k = true ∧ spaceFreeD v = true := by
  induction d with
  | nil => cases hm
  | cons hd tl ih =>
    obtain ⟨k1, v1⟩ := hd
    rw [spaceFreeEntries, Bool.and_eq_true, Bool.and_eq_true] at hs
    rcases List.mem_cons.mp hm with h | h
    · cases h
      exact ⟨hs.1.1, hs.1.2⟩
    · exact ih hs.2 h

theorem alignedEntries_mem (a b : List (String × DVal)) (k : String) (v w : DVal)
    (ha : alignedEntries a b = true) (hm : (k, v) ∈ a) (hl : lookupA b k = some w) :
    alignedB v w = true := by
  induction a with
  | nil => cases hm
  | cons hd tl ih =>
    obtain ⟨k1, v1⟩ := hd
    rw [alignedEntries, Bool.and_eq_true] at ha
    rcases List.mem_cons.mp hm with h | h
    · cases h
      have := ha.1
      rw [hl] at this
      exact this
    · exact ih ha.2 h

theorem mem_ELoop1 (l o2 : List (String × DVal)) (parent : String) (e : DEntry) :
    e ∈ ELoop1 l o2 parent ↔ ∃ k v, (k, v) ∈ l ∧ e ∈ EChunk o2 parent k v := by
  induction l with
  | nil =>
    simp only [ELoop1]
    constructor
    · intro h; cases h
    · rintro ⟨k, v, hm, _⟩; cases hm
  | cons hd tl ih =>
    obtain ⟨k1, v1⟩ := hd
    rw [ELoop1, List.mem_append, ih]
    constructor
    · rintro (h | ⟨k, v, hm, hc⟩)
      · exact ⟨k1, v1, List.mem_cons_self _ _, h⟩
      · exact ⟨k, v, List.mem_cons_of_mem _ hm, hc⟩
    · rintro ⟨k, v, hm, hc⟩
      rcases List.mem_cons.mp hm with h | h
      · cases h
        exact Or.inl hc
      · exact Or.inr ⟨k, v, h, hc⟩

theorem mem_ELoop2E (l : List (String × DVal)) (keys1 : List String) (parent : String)
    (e : DEntry) :
    e ∈ ELoop2E l keys1 parent ↔
      ∃ k w, (k, w) ∈ l ∧ keys1.contains k = false ∧ truthyD w = true ∧
        e = ("key " ++ parent ++ " " ++ k, (DVal.str "missing", w)) := by
  induction l with
  | nil =>
    simp only [ELoop2E]
    constructor
    · intro h; cases h
    · rintro ⟨k, w, hm, _⟩; cases hm
  | cons hd tl ih =>
    obtain ⟨k1, w1⟩ := hd
    rw [ELoop2E, List.mem_append, ih]
    constructor
    · rintro (h | ⟨k, w, hm, hc, ht, he⟩)
      · by_cases h1 : keys1.contains k1 = true
        · rw [if_pos h1] at h
          cases h
        · rw [if_neg h1] at h
          by_cases h2 : truthyD w1 = true
          · rw [if_pos h2] at h
            rcases List.mem_singleton.mp h with he
            exact ⟨k1, w1, List.mem_cons_self _ _, Bool.not_eq_true _ ▸ h1, h2, he⟩
          · rw [if_neg h2] at h
            cases h
      · exact ⟨k, w, List.mem_cons_of_mem _ hm, hc, ht, he⟩
    · rintro ⟨k, w, hm, hc, ht, he⟩
      rcases List.mem_cons.mp hm with h | h
      · cases h
        rw [if_neg (by rw [hc]; intro hcc; cases hcc), if_pos ht]
        exact Or.inl (he ▸ List.mem_singleton.mpr rfl)
      · exact Or.inr ⟨k, w, h, hc, ht, he⟩

unseal wfD wfEntries

unseal alignedB alignedEntries

unseal spaceFreeD spaceFreeEntries

unseal EChunk ELoop1 EDiff

/-! #### Path anatomy

Every report path is pre ++ parent ++ " " ++ k ++ rest where pre is
empty or "key ", k is the key of the o1-or-o2 entry the report came from
(at this level), and rest is empty or starts with a space (deeper
levels).  With space-free keys, this decomposition is unambiguous, which
makes reports keyed by distinct top-level keys distinct.
-/

def SpacedTail (r : List Char) : Prop :=
  r = [] ∨ ∃ x, r = ' ' :: x

def PathShape (parent k p : String) : Prop :=
  ∃ pre rest, (pre = [] ∨ pre = "key ".data) ∧ SpacedTail rest ∧
    p.data = pre ++ parent.data ++ ' ' :: (k.data ++ rest)

def ParentSp (parent : String) : Prop :=
  parent.data = [] ∨ ∃ x, parent.data = ' ' :: x

theorem data_ext (s u : String) (h : s.data = u.data) : s = u := by
  cases s
  cases u
  cases h
  rfl

theorem data_append_chain (parent k : String) :
    (parent ++ " " ++ k).data = parent.data ++ ' ' :: k.data := by
  simp [String.data_append]

theorem data_key_chain (parent k : String) :
    ("key " ++ parent ++ " " ++ k).data =
      "key ".data ++ parent.data ++ ' ' :: k.data := by
  simp [String.data_append]

theorem parentSp_step (parent k : String) (h : ParentSp parent) :
    ParentSp (parent ++ " " ++ k) := by
  rw [ParentSp, data_append_chain]
  rcases h with h | ⟨x, h⟩
  · rw [h]
    exact Or.inr ⟨k.data, rfl⟩
  · rw [h]
    exact Or.inr ⟨x ++ ' ' :: k.data, rfl⟩

theorem pathShape_self (parent k : String) :
    PathShape parent k (parent ++ " " ++ k) := by
  refine ⟨[], [], Or.inl rfl, Or.inl rfl, ?_⟩
  rw [data_append_chain]
  simp

theorem pathShape_key (parent k : String) :
    PathShape parent k ("key " ++ parent ++ " " ++ k) := by
  refine ⟨"key ".data, [], Or.inr rfl, Or.inl rfl, ?_⟩
  rw [data_key_chain]
  simp

theorem pathShape_up (parent k k' p : String)
    (h : PathShape (parent ++ " " ++ k) k' p) : PathShape parent k p := by
  obtain ⟨pre, rest, hpre, _, hdata⟩ := h
  refine ⟨pre, ' ' :: (k'.data ++ rest), hpre, Or.inr ⟨_, rfl⟩, ?_⟩
  rw [hdata, data_append_chain]
  simp

theorem word_space_inj : ∀ (w : List Char) {w2 r r2 : List Char}, ' ' ∉ w → ' ' ∉ w2 →
    SpacedTail r → SpacedTail r2 → w ++ r = w2 ++ r2 → w = w2 ∧ r = r2 := by
  intro w
  induction w with
  | nil =>
    intro w2 r r2 _ hw2 hr hr2 he
    cases w2 with
    | nil => exact ⟨rfl, he⟩
    | cons c w2' =>
      exfalso
      rcases hr with h | ⟨x, h⟩
      · subst h
        simp at he
      · subst h
        rw [List.nil_append, List.cons_append] at he
        injection he with h1 _
        exact hw2 (h1 ▸ List.mem_cons_self c w2')
  | cons c w' ih =>
    intro w2 r r2 hw hw2 hr hr2 he
    cases w2 with
    | nil =>
      exfalso
      rcases hr2 with h | ⟨x, h⟩
      · subst h
        simp at he
      · subst h
        rw [List.nil_append, List.cons_append] at he
        injection he with h1 _
        exact hw (h1.symm ▸ List.mem_cons_self c w')
    | cons c2 w2' =>
      rw [List.cons_append, List.cons_append] at he
      injection he with h1 ht
      have hw' : ' ' ∉ w' := fun hm => hw (List.mem_cons_of_mem _ hm)
      have hw2' : ' ' ∉ w2' := fun hm => hw2 (List.mem_cons_of_mem _ hm)
      obtain ⟨hh1, hh2⟩ := ih hw' hw2' hr hr2 ht
      exact ⟨by rw [h1, hh1], hh2⟩

theorem path_ne_of_shape (parent k k2 p p2 : String) (hp : ParentSp parent)
    (hk : spaceFreeStr k = true) (hk2 : spaceFreeStr k2 = true) (hne : k ≠ k2)
    (h1 : PathShape parent k p) (h2 : PathShape parent k2 p2) : p ≠ p2 := by
  obtain ⟨pre, rest, hpre, hrest, hdata⟩ := h1
  obtain ⟨pre2, rest2, hpre2, hrest2, hdata2⟩ := h2
  intro he
  subst he
  rw [hdata] at hdata2
  have hkey : ("key ".data : List Char) = 'k' :: 'e' :: 'y' :: ' ' :: [] := rfl
  rcases hpre with hpe | hpk <;> rcases hpre2 with hpe2 | hpk2
  · rw [hpe, hpe2] at hdata2
    simp only [List.nil_append] at hdata2
    have hc := List.append_cancel_left hdata2
    injection hc with _ hc2
    obtain ⟨heq, _⟩ :=
      word_space_inj k.data (spaceFree_not_mem k hk) (spaceFree_not_mem k2 hk2)
        hrest hrest2 hc2
    exact hne (data_ext k k2 heq)
  · rw [hpe, hpk2, hkey] at hdata2
    simp only [List.nil_append] at hdata2
    rcases hp with hp | ⟨x, hp⟩ <;> rw [hp] at hdata2
    · injection hdata2 with hh _
      exact absurd hh (by decide)
    · rw [List.cons_append] at hdata2
      injection hdata2 with hh _
      exact absurd hh (by decide)
  · rw [hpk, hpe2, hkey] at hdata2
    simp only [List.nil_append] at hdata2
    rcases hp with hp | ⟨x, hp⟩ <;> rw [hp] at hdata2
    · injection hdata2 with hh _
      exact absurd hh (by decide)
    · rw [List.cons_append] at hdata2
      injection hdata2 with hh _
      exact absurd hh (by decide)
  · rw [hpk, hpk2] at hdata2
    have hc1 := List.append_cancel_left hdata2
    injection hc1 with _ hc2
    obtain ⟨heq, _⟩ :=
      word_space_inj k.data (spaceFree_not_mem k hk) (spaceFree_not_mem k2 hk2)
        hrest hrest2 hc2
    exact hne (data_ext k k2 heq)

theorem sizeOf_snd_lt_of_mem (k : String) (v : DVal) (l : List (String × DVal))
    (h : (k, v) ∈ l) : sizeOf v < sizeOf l := by
  have h1 := List.sizeOf_lt_of_mem h
  simp only [Prod.mk.sizeOf_spec] at h1
  omega

theorem sizeOf_dict_entries (d : List (String × DVal)) :
    sizeOf d < sizeOf (DVal.dict d) := by
  simp only [DVal.dict.sizeOf_spec]
  omega

def isDictD : DVal → Bool
  | DVal.dict _ => true
  | DVal.num _ => false
  | DVal.str _ => false

theorem EChunk_none (o2 : List (String × DVal)) (parent k : String) (v : DVal)
    (hl : lookupA o2 k = none) :
    EChunk o2 parent k v =
      if truthyD v = true then [("key " ++ parent ++ " " ++ k, (v, DVal.str "missing"))]
      else [] := by
  rw [EChunk, hl]

theorem EChunk_dict_dict (o2 : List (String × DVal)) (parent k : String)
    (dv dw : List (String × DVal)) (hl : lookupA o2 k = some (DVal.dict dw)) :
    EChunk o2 parent k (DVal.dict dv) = EDiff dv dw (parent ++ " " ++ k) := by
  rw [EChunk, hl]

theorem EChunk_leaf (o2 : List (String × DVal)) (parent k : String) (v w : DVal)
    (hl : lookupA o2 k = some w) (hv : isDictD v = false ∨ isDictD w = false) :
    EChunk o2 parent k v =
      if dBeq v w = true then [] else [(parent ++ " " ++ k, (v, w))] := by
  rw [EChunk, hl]
  cases v <;> cases w <;>
    first
      | rfl
      | (exfalso; rcases hv with h | h <;> cases h)

/-- Every report of the emission form has a PathShape at the level it was
emitted from. -/
theorem shape_aux : ∀ n : Nat,
    (∀ (v : DVal) (o2 : List (String × DVal)) (parent k : String) (e : DEntry),
      sizeOf v ≤ n → e ∈ EChunk o2 parent k v → PathShape parent k e.1) ∧
    (∀ (o1 o2 : List (String × DVal)) (parent : String) (e : DEntry),
      sizeOf o1 ≤ n → e ∈ EDiff o1 o2 parent → ∃ k, PathShape parent k e.1) := by
  intro n
  induction n using Nat.strong_induction_on with
  | _ n IH =>
    have hleaf : ∀ (v w : DVal) (o2 : List (String × DVal)) (parent k : String) (e : DEntry),
        lookupA o2 k = some w → (isDictD v = false ∨ isDictD w = false) →
        e ∈ EChunk o2 parent k v → PathShape parent k e.1 := by
      intro v w o2 parent k e hl hv hmem
      rw [EChunk_leaf o2 parent k v w hl hv] at hmem
      by_cases hb : dBeq v w = true
      · rw [if_pos hb] at hmem
        cases hmem
      · rw [if_neg hb] at hmem
        rcases List.mem_singleton.mp hmem with rfl
        exact pathShape_self parent k
    constructor
    · intro v o2 parent k e hsz hmem
      cases hl : lookupA o2 k with
      | none =>
        rw [EChunk_none o2 parent k v hl] at hmem
        by_cases ht : truthyD v = true
        · rw [if_pos ht] at hmem
          rcases List.mem_singleton.mp hmem with rfl
          exact pathShape_key parent k
        · rw [if_neg ht] at hmem
          cases hmem
      | some w =>
        cases v with
        | dict dv =>
          cases w with
          | dict dw =>
            rw [EChunk_dict_dict o2 parent k dv dw hl] at hmem
            have hvn : sizeOf dv < n := by
              have := sizeOf_dict_entries dv
              omega
            obtain ⟨k2, hsh⟩ := (IH (sizeOf dv) hvn).2 dv dw (parent ++ " " ++ k) e
              le_rfl hmem
            exact pathShape_up parent k k2 e.1 hsh
          | num m => exact hleaf _ _ o2 parent k e hl (Or.inr rfl) hmem
          | str s => exact hleaf _ _ o2 parent k e hl (Or.inr rfl) hmem
        | num a => exact hleaf (DVal.num a) w o2 parent k e hl (Or.inl rfl) hmem
        | str u => exact hleaf (DVal.str u) w o2 parent k e hl (Or.inl rfl) hmem
    · intro o1 o2 parent e hsz hmem
      rw [EDiff] at hmem
      rcases List.mem_append.mp hmem with hm | hm
      · obtain ⟨k, v, hkv, hc⟩ := (mem_ELoop1 o1 o2 parent e).mp hm
        have hvlt : sizeOf v < n := by
          have := sizeOf_snd_lt_of_mem k v o1 hkv
          omega
        exact ⟨k, (IH (sizeOf v) hvlt).1 v o2 parent k e le_rfl hc⟩
      · obtain ⟨k, w, _, _, _, he⟩ := (mem_ELoop2E o2 (o1.map Prod.fst) parent e).mp hm
        subst he
        exact ⟨k, pathShape_key parent k⟩

theorem EChunk_shape (v : DVal) (o2 : List (String × DVal)) (parent k : String) (e : DEntry)
    (hmem : e ∈ EChunk o2 parent k v) : PathShape parent k e.1 :=
  (shape_aux (sizeOf v)).1 v o2 parent k e le_rfl hmem

theorem ELoop2E_paths_nodup (l : List (String × DVal)) (keys1 : List String) (parent : String)
    (hnd : (l.map Prod.fst).Nodup) (hsf : spaceFreeEntries l = true) (hp : ParentSp parent) :
    ((ELoop2E l keys1 parent).map Prod.fst).Nodup := by
  induction l with
  | nil => simp [ELoop2E]
  | cons hd tl ih =>
    obtain ⟨k, w⟩ := hd
    rw [List.map_cons, List.nodup_cons] at hnd
    rw [spaceFreeEntries, Bool.and_eq_true, Bool.and_eq_true] at hsf
    rw [ELoop2E, List.map_append, List.nodup_append]
    refine ⟨?_, ih hnd.2 hsf.2, ?_⟩
    · by_cases h1 : keys1.contains k = true
      · rw [if_pos h1]
        exact List.nodup_nil
      · rw [if_neg h1]
        by_cases h2 : truthyD w = true
        · rw [if_pos h2]
          simp
        · rw [if_neg h2]
          exact List.nodup_nil
    · intro a ha ha2
      rcases List.mem_map.mp ha2 with ⟨e2, he2, he2a⟩
      obtain ⟨k2, w2, hm2, _, _, hpath2⟩ := (mem_ELoop2E tl keys1 parent e2).mp he2
      have ha1 : a = "key " ++ parent ++ " " ++ k := by
        by_cases h1 : keys1.contains k = true
        · rw [if_pos h1] at ha
          cases ha
        · rw [if_neg h1] at ha
          by_cases h2 : truthyD w = true
          · rw [if_pos h2] at ha
            rcases List.mem_singleton.mp ha with rfl
            rfl
          · rw [if_neg h2] at ha
            cases ha
      have hk2 : spaceFreeStr k2 = true :=
        (spaceFreeEntries_mem tl k2 w2 hsf.2 hm2).1
      have hne : k ≠ k2 := by
        intro he
        exact hnd.1 (he ▸ List.mem_map.mpr ⟨(k2, w2), hm2, rfl⟩)
      refine path_ne_of_shape parent k k2 a a hp hsf.1.1 hk2 hne ?_ ?_ rfl
      · rw [ha1]
        exact pathShape_key parent k
      · rw [← he2a, hpath2]
        exact pathShape_key parent k2

/-- On well-formed space-free inputs every report path is reported at most
once, so the diffs dict degenerates to pure appends. -/
theorem EDiff_paths_nodup : ∀ n (o1 o2 : List (String × DVal)) (parent : String),
    sizeOf o1 ≤ n →
    (o1.map Prod.fst).Nodup → wfEntries o1 = true → spaceFreeEntries o1 = true →
    (o2.map Prod.fst).Nodup → wfEntries o2 = true → spaceFreeEntries o2 = true →
    ParentSp parent →
    ((EDiff o1 o2 parent).map Prod.fst).Nodup := by
  intro n
  induction n using Nat.strong_induction_on with
  | _ n IH =>
    intro o1 o2 parent hsz hnd1 hwf1 hsf1 hnd2 hwf2 hsf2 hp
    have hchunk : ∀ (k : String) (v : DVal), (k, v) ∈ o1 →
        ((EChunk o2 parent k v).map Prod.fst).Nodup := by
      intro k v hkv
      cases hl : lookupA o2 k with
      | none =>
        rw [EChunk_none o2 parent k v hl]
        by_cases ht : truthyD v = true
        · rw [if_pos ht]
          simp
        · rw [if_neg ht]
          exact List.nodup_nil
      | some w =>
        have hleafcase : ∀ hv : isDictD v = false ∨ isDictD w = false,
            ((EChunk o2 parent k v).map Prod.fst).Nodup := by
          intro hv
          rw [EChunk_leaf o2 parent k v w hl hv]
          by_cases hb : dBeq v w = true
          · rw [if_pos hb]
            exact List.nodup_nil
          · rw [if_neg hb]
            simp
        cases v with
        | num a => exact hleafcase (Or.inl rfl)
        | str s => exact hleafcase (Or.inl rfl)
        | dict dv =>
          cases w with
          | num m => exact hleafcase (Or.inr rfl)
          | str s => exact hleafcase (Or.inr rfl)
          | dict dw =>
            rw [EChunk_dict_dict o2 parent k dv dw hl]
            have hvlt : sizeOf dv < n := by
              have h1 := sizeOf_snd_lt_of_mem k (DVal.dict dv) o1 hkv
              have h2 := sizeOf_dict_entries dv
              omega
            have hwv : wfD (DVal.dict dv) = true := wfEntries_mem o1 k _ hwf1 hkv
            obtain ⟨hnddv, hwfdv⟩ := wfD_dict dv hwv
            have hsv : spaceFreeD (DVal.dict dv) = true :=
              (spaceFreeEntries_mem o1 k _ hsf1 hkv).2
            rw [spaceFreeD] at hsv
            have hmw : (k, DVal.dict dw) ∈ o2 := mem_pair_of_lookupA_some o2 k _ hl
            have hww : wfD (DVal.dict dw) = true := wfEntries_mem o2 k _ hwf2 hmw
            obtain ⟨hnddw, hwfdw⟩ := wfD_dict dw hww
            have hsw : spaceFreeD (DVal.dict dw) = true :=
              (spaceFreeEntries_mem o2 k _ hsf2 hmw).2
            rw [spaceFreeD] at hsw
            exact IH (sizeOf dv) hvlt dv dw (parent ++ " " ++ k) le_rfl
              hnddv hwfdv hsv hnddw hwfdw hsw (parentSp_step parent k hp)
    have hloop1 : ∀ (l : List (String × DVal)), (∀ kv ∈ l, kv ∈ o1) →
        (l.map Prod.fst).Nodup → spaceFreeEntries l = true →
        ((ELoop1 l o2 parent).map Prod.fst).Nodup := by
      intro l
      induction l with
      | nil =>
        intro _ _ _
        simp [ELoop1]
      | cons hd tl ih =>
        intro hsub hnd hsf
        obtain ⟨k, v⟩ := hd
        rw [List.map_cons, List.nodup_cons] at hnd
        rw [spaceFreeEntries, Bool.and_eq_true, Bool.and_eq_true] at hsf
        rw [ELoop1, List.map_append, List.nodup_append]
        refine ⟨hchunk k v (hsub _ (List.mem_cons_self _ _)), ?_, ?_⟩
        · exact ih (fun kv h => hsub kv (List.mem_cons_of_mem _ h)) hnd.2 hsf.2
        · intro a ha ha2
          rcases List.mem_map.mp ha with ⟨e1, he1, he1a⟩
          rcases List.mem_map.mp ha2 with ⟨e2, he2, he2a⟩
          obtain ⟨k2, v2, hm2, hc2⟩ := (mem_ELoop1 tl o2 parent e2).mp he2
          have hk2 : spaceFreeStr k2 = true :=
            (spaceFreeEntries_mem tl k2 v2 hsf.2 hm2).1
          have hne : k ≠ k2 := by
            intro he
            exact hnd.1 (he ▸ List.mem_map.mpr ⟨(k2, v2), hm2, rfl⟩)
          refine path_ne_of_shape parent k k2 a a hp hsf.1.1 hk2 hne ?_ ?_ rfl
          · rw [← he1a]
            exact EChunk_shape v o2 parent k e1 he1
          · rw [← he2a]
            exact EChunk_shape v2 o2 parent k2 e2 hc2
    rw [EDiff, List.map_append, List.nodup_append]
    refine ⟨hloop1 o1 (fun _ h => h) hnd1 hsf1,
      ELoop2E_paths_nodup o2 (o1.map Prod.fst) parent hnd2 hsf2 hp, ?_⟩
    intro a ha ha2
    rcases List.mem_map.mp ha with ⟨e1, he1, he1a⟩
    rcases List.mem_map.mp ha2 with ⟨e2, he2, he2a⟩
    obtain ⟨k1, v1, hm1, hc1⟩ := (mem_ELoop1 o1 o2 parent e1).mp he1
    obtain ⟨k2, w2, hm2, hcont2, _, hpath2⟩ :=
      (mem_ELoop2E o2 (o1.map Prod.fst) parent e2).mp he2
    have hk1 : spaceFreeStr k1 = true := (spaceFreeEntries_mem o1 k1 v1 hsf1 hm1).1
    have hk2 : spaceFreeStr k2 = true := (spaceFreeEntries_mem o2 k2 w2 hsf2 hm2).1
    have hne : k1 ≠ k2 := by
      intro he
      subst he
      have : k1 ∈ o1.map Prod.fst := List.mem_map.mpr ⟨(k1, v1), hm1, rfl⟩
      rw [← contains_iff_mem_keys] at this
      rw [this] at hcont2
      cases hcont2
    refine path_ne_of_shape parent k1 k2 a a hp hk1 hk2 hne ?_ ?_ rfl
    · rw [← he1a]
      exact EChunk_shape v1 o2 parent k1 e1 hc1
    · rw [← he2a, hpath2]
      exact pathShape_key parent k2

theorem faithLoop2 : ∀ (l : List (String × DVal)), ∀ (o2full : List (String × DVal))
    (keys1 : List String) (parent : String) (D : List DEntry),
    (∀ kv ∈ l, lookupA o2full kv.1 = some kv.2) →
    ((D ++ ELoop2E l keys1 parent).map Prod.fst).Nodup →
    diffLoop2 (l.map Prod.fst) keys1 (DVal.dict o2full) parent D =
      Except.ok (D ++ ELoop2E l keys1 parent) := by
  intro l
  induction l with
  | nil =>
    intro o2full keys1 parent D _ _
    simp [diffLoop2, ELoop2E]
  | cons hd tl ih =>
    intro o2full keys1 parent D hlk hnd
    obtain ⟨k, w⟩ := hd
    have hlkh : lookupA o2full k = some w := hlk (k, w) (List.mem_cons_self _ _)
    have hlkt : ∀ kv ∈ tl, lookupA o2full kv.1 = some kv.2 :=
      fun kv h => hlk kv (List.mem_cons_of_mem _ h)
    rw [List.map_cons]
    by_cases h1 : keys1.contains k = true
    · rw [ELoop2E, if_pos h1, List.nil_append] at hnd ⊢
      rw [diffLoop2, if_pos h1]
      exact ih o2full keys1 parent D hlkt hnd
    · by_cases h2 : truthyD w = true
      · rw [ELoop2E, if_neg h1, if_pos h2] at hnd ⊢
        rw [diffLoop2, if_neg h1]
        simp only [pyGetKey, hlkh]
        rw [if_pos h2]
        have hfresh : ("key " ++ parent ++ " " ++ k) ∉ D.map Prod.fst := by
          rw [List.map_append, List.nodup_append] at hnd
          intro hmem
          exact hnd.2.2 hmem (by simp)
        rw [insertA_eq_append_of_not_mem D _ _ hfresh]
        have hres := ih o2full keys1 parent
          (D ++ [("key " ++ parent ++ " " ++ k, (DVal.str "missing", w))]) hlkt ?_
        · rw [hres]
          simp
        · rw [List.append_assoc]
          simpa using hnd
      · rw [ELoop2E, if_neg h1, if_neg h2, List.nil_append] at hnd ⊢
        rw [diffLoop2, if_neg h1]
        simp only [pyGetKey, hlkh]
        rw [if_neg h2]
        exact ih o2full keys1 parent D hlkt hnd

/-- On aligned inputs with globally distinct report paths the differ does
not crash, every insertion is fresh, and the result is exactly the
emission form. -/
theorem faith_aux : ∀ n : Nat,
    (∀ (l o2full : List (String × DVal)) (parent : String) (D : List DEntry),
      sizeOf l ≤ n →
      alignedEntries l o2full = true →
      (o2full.map Prod.fst).Nodup → wfEntries o2full = true →
      ((D ++ ELoop1 l o2full parent).map Prod.fst).Nodup →
      diffLoop1 l (DVal.dict o2full) parent D =
        Except.ok (D ++ ELoop1 l o2full parent)) ∧
    (∀ (o1 o2full : List (String × DVal)) (parent : String),
      sizeOf o1 ≤ n →
      alignedEntries o1 o2full = true →
      (o2full.map Prod.fst).Nodup → wfEntries o2full = true →
      ((EDiff o1 o2full parent).map Prod.fst).Nodup →
      diffObjects o1 (DVal.dict o2full) parent =
        Except.ok (EDiff o1 o2full parent)) := by
  intro n
  induction n using Nat.strong_induction_on with
  | _ n IH =>
    have part1 : ∀ (l o2full : List (String × DVal)) (parent : String) (D : List DEntry),
        sizeOf l ≤ n →
        alignedEntries l o2full = true →
        (o2full.map Prod.fst).Nodup → wfEntries o2full = true →
        ((D ++ ELoop1 l o2full parent).map Prod.fst).Nodup →
        diffLoop1 l (DVal.dict o2full) parent D =
          Except.ok (D ++ ELoop1 l o2full parent) := by
      intro l o2full parent D hsz halign hnd2 hwf2 hnd
      cases l with
      | nil => simp [diffLoop1, ELoop1]
      | cons hd tl =>
        obtain ⟨k, v⟩ := hd
        have hszt : sizeOf tl < n := by
          have h := hsz
          simp only [List.cons.sizeOf_spec, Prod.mk.sizeOf_spec] at h
          omega
        rw [alignedEntries, Bool.and_eq_true] at halign
        obtain ⟨halignh0, halignt⟩ := halign
        by_cases hcont : (o2full.map Prod.fst).contains k = true
        · have hmemk : k ∈ o2full.map Prod.fst := (contains_iff_mem_keys o2full k).mp hcont
          cases hlk : lookupA o2full k with
          | none =>
            exfalso
            have hs := lookupA_isSome_of_mem o2full k hmemk
            rw [hlk] at hs
            cases hs
          | some w =>
            rw [hlk] at halignh0
            have halignh : alignedB v w = true := halignh0
            cases v with
            | dict dv =>
              cases w with
              | num m =>
                rw [alignedB] at halignh
                cases halignh
              | str s =>
                rw [alignedB] at halignh
                cases halignh
              | dict dw =>
                rw [alignedB] at halignh
                have hch := EChunk_dict_dict o2full parent k dv dw hlk
                rw [ELoop1, hch] at hnd ⊢
                have hmw : (k, DVal.dict dw) ∈ o2full :=
                  mem_pair_of_lookupA_some o2full k _ hlk
                obtain ⟨hnddw, hwfdw⟩ := wfD_dict dw (wfEntries_mem o2full k _ hwf2 hmw)
                have hdvlt : sizeOf dv < n := by
                  have h := hsz
                  simp only [List.cons.sizeOf_spec, Prod.mk.sizeOf_spec,
                    DVal.dict.sizeOf_spec] at h
                  omega
                have hnd' := hnd
                rw [List.map_append, List.map_append, List.nodup_append] at hnd'
                have hndEL := List.nodup_append.mp hnd'.2.1
                have hrec := (IH (sizeOf dv) hdvlt).2 dv dw (parent ++ " " ++ k) le_rfl
                  halignh hnddw hwfdw hndEL.1
                simp only [diffLoop1, pyInKey, hcont, if_true, pyGetKey, hlk]
                simp only [hrec]
                have hupd : updateAList D (EDiff dv dw (parent ++ " " ++ k)) =
                    D ++ EDiff dv dw (parent ++ " " ++ k) := by
                  refine updateAList_eq_append _ D ?_ hndEL.1
                  intro k2 hk2 hk2d
                  exact hnd'.2.2 hk2d (List.mem_append_left _ hk2)
                rw [hupd]
                have htl := (IH (sizeOf tl) hszt).1 tl o2full parent
                  (D ++ EDiff dv dw (parent ++ " " ++ k)) le_rfl halignt hnd2 hwf2 ?_
                · rw [htl, List.append_assoc]
                · rw [← List.append_assoc] at hnd
                  exact hnd
            | num a =>
              have hch := EChunk_leaf o2full parent k (DVal.num a) w hlk (Or.inl rfl)
              by_cases hb : dBeq (DVal.num a) w = true
              · rw [ELoop1, hch, if_pos hb, List.nil_append] at hnd ⊢
                simp only [diffLoop1, pyInKey, hcont, if_true, pyGetKey, hlk]
                rw [if_pos hb]
                exact (IH (sizeOf tl) hszt).1 tl o2full parent D le_rfl halignt hnd2 hwf2 hnd
              · rw [ELoop1, hch, if_neg hb] at hnd ⊢
                simp only [diffLoop1, pyInKey, hcont, if_true, pyGetKey, hlk]
                rw [if_neg hb]
                have hnd' := hnd
                rw [List.map_append, List.map_append, List.nodup_append] at hnd'
                have hfresh : (parent ++ " " ++ k) ∉ D.map Prod.fst := by
                  intro hm
                  exact hnd'.2.2 hm (List.mem_append_left _ (by simp))
                rw [insertA_eq_append_of_not_mem D _ _ hfresh]
                have htl := (IH (sizeOf tl) hszt).1 tl o2full parent
                  (D ++ [(parent ++ " " ++ k, (DVal.num a, w))]) le_rfl halignt hnd2 hwf2 ?_
                · rw [htl, List.append_assoc]
                · rw [← List.append_assoc] at hnd
                  exact hnd
            | str u =>
              have hch := EChunk_leaf o2full parent k (DVal.str u) w hlk (Or.inl rfl)
              by_cases hb : dBeq (DVal.str u) w = true
              · rw [ELoop1, hch, if_pos hb, List.nil_append] at hnd ⊢
                simp only [diffLoop1, pyInKey, hcont, if_true, pyGetKey, hlk]
                rw [if_pos hb]
                exact (IH (sizeOf tl) hszt).1 tl o2full parent D le_rfl halignt hnd2 hwf2 hnd
              · rw [ELoop1, hch, if_neg hb] at hnd ⊢
                simp only [diffLoop1, pyInKey, hcont, if_true, pyGetKey, hlk]
                rw [if_neg hb]
                have hnd' := hnd
                rw [List.map_append, List.map_append, List.nodup_append] at hnd'
                have hfresh : (parent ++ " " ++ k) ∉ D.map Prod.fst := by
                  intro hm
                  exact hnd'.2.2 hm (List.mem_append_left _ (by simp))
                rw [insertA_eq_append_of_not_mem D _ _ hfresh]
                have htl := (IH (sizeOf tl) hszt).1 tl o2full parent
                  (D ++ [(parent ++ " " ++ k, (DVal.str u, w))]) le_rfl halignt hnd2 hwf2 ?_
                · rw [htl, List.append_assoc]
                · rw [← List.append_assoc] at hnd
                  exact hnd
        · have hcf : (o2full.map Prod.fst).contains k = false := by
            rw [← Bool.not_eq_true]
            exact hcont
          have hmemk : k ∉ o2full.map Prod.fst := by
            intro hm
            exact hcont ((contains_iff_mem_keys o2full k).mpr hm)
          have hlk : lookupA o2full k = none := lookupA_eq_none_of_not_mem o2full k hmemk
          have hch := EChunk_none o2full parent k v hlk
          by_cases ht : truthyD v = true
          · rw [ELoop1, hch, if_pos ht] at hnd ⊢
            have hnd' := hnd
            rw [List.map_append, List.map_append, List.nodup_append] at hnd'
            have hfresh : ("key " ++ parent ++ " " ++ k) ∉ D.map Prod.fst := by
              intro hm
              exact hnd'.2.2 hm (List.mem_append_left _ (by simp))
            have htl := (IH (sizeOf tl) hszt).1 tl o2full parent
              (D ++ [("key " ++ parent ++ " " ++ k, (v, DVal.str "missing"))]) le_rfl
              halignt hnd2 hwf2 ?_
            · cases v <;>
                simp only [diffLoop1, pyInKey, hcf, Bool.false_eq_true, if_false] <;>
                rw [if_pos ht, insertA_eq_append_of_not_mem D _ _ hfresh, htl,
                  List.append_assoc]
            · rw [← List.append_assoc] at hnd
              exact hnd
          · rw [ELoop1, hch, if_neg ht, List.nil_append] at hnd ⊢
            have htl := (IH (sizeOf tl) hszt).1 tl o2full parent D le_rfl
              halignt hnd2 hwf2 hnd
            cases v <;>
              simp only [diffLoop1, pyInKey, hcf, Bool.false_eq_true, if_false] <;>
              rw [if_neg ht, htl]
    refine ⟨part1, ?_⟩
    intro o1 o2full parent hsz halign hnd2 hwf2 hnd
    have hndE := hnd
    rw [EDiff, List.map_append, List.nodup_append] at hndE
    have hL1 : ((([] : List DEntry) ++ ELoop1 o1 o2full parent).map Prod.fst).Nodup := by
      rw [List.nil_append]
      exact hndE.1
    have h1 := part1 o1 o2full parent [] hsz halign hnd2 hwf2 hL1
    rw [List.nil_append] at h1
    have h2 := faithLoop2 o2full o2full (o1.map Prod.fst) parent
      (ELoop1 o1 o2full parent) ?_ ?_
    · simp only [diffObjects, h1, pyIterKeys]
      rw [h2, EDiff]
    · intro kv hm
      obtain ⟨a, b⟩ := kv
      exact lookupA_of_mem_nodup o2full a b hnd2 hm
    · rw [EDiff] at hnd
      exact hnd

theorem dBeq_leaf_symm (v w : DVal) (hv : isDictD v = false ∨ isDictD w = false) :
    dBeq v w = dBeq w v := by
  cases v with
  | num a =>
    cases w with
    | num b =>
      simp only [dBeq]
      exact beq_comm_eq a b
    | str s => simp only [dBeq]
    | dict d => simp only [dBeq]
  | str u =>
    cases w with
    | num b => simp only [dBeq]
    | str s =>
      simp only [dBeq]
      exact beq_comm_eq u s
    | dict d => simp only [dBeq]
  | dict dv =>
    cases w with
    | num b => simp only [dBeq]
    | str s => simp only [dBeq]
    | dict d =>
      exfalso
      rcases hv with h | h <;> cases h

/-- On aligned well-formed trees the two diff directions report the same
paths with the two sides of each report swapped. -/
theorem EDiff_swap : ∀ n (o1 o2 : List (String × DVal)) (parent : String),
    sizeOf o1 + sizeOf o2 ≤ n →
    (o1.map Prod.fst).Nodup → (o2.map Prod.fst).Nodup →
    wfEntries o1 = true → wfEntries o2 = true →
    alignedEntries o1 o2 = true → alignedEntries o2 o1 = true →
    ∀ (p : String) (v w : DVal), (p, (v, w)) ∈ EDiff o1 o2 parent →
      (p, (w, v)) ∈ EDiff o2 o1 parent := by
  intro n
  induction n using Nat.strong_induction_on with
  | _ n IH =>
    intro o1 o2 parent hsz hnd1 hnd2 hwf1 hwf2 ha12 ha21 p v w hmem
    rw [EDiff, List.mem_append] at hmem
    rcases hmem with hm1 | hm2
    · obtain ⟨k, v1, hkv, hc⟩ := (mem_ELoop1 o1 o2 parent (p, (v, w))).mp hm1
      cases hlk : lookupA o2 k with
      | none =>
        rw [EChunk_none o2 parent k v1 hlk] at hc
        by_cases ht : truthyD v1 = true
        · rw [if_pos ht] at hc
          have heq := List.mem_singleton.mp hc
          rw [Prod.mk.injEq, Prod.mk.injEq] at heq
          obtain ⟨hp, hv, hw⟩ := heq
          rw [hp, hv, hw, EDiff]
          refine List.mem_append_right _ ?_
          refine (mem_ELoop2E o1 (o2.map Prod.fst) parent _).mpr ⟨k, v1, hkv, ?_, ht, rfl⟩
          rw [← Bool.not_eq_true]
          intro hcc
          have hmk : k ∈ o2.map Prod.fst := (contains_iff_mem_keys o2 k).mp hcc
          have hs := lookupA_isSome_of_mem o2 k hmk
          rw [hlk] at hs
          cases hs
        · rw [if_neg ht] at hc
          cases hc
      | some w2 =>
        have halign : alignedB v1 w2 = true := alignedEntries_mem o1 o2 k v1 w2 ha12 hkv hlk
        have hmw2 : (k, w2) ∈ o2 := mem_pair_of_lookupA_some o2 k w2 hlk
        have hlk1 : lookupA o1 k = some v1 := lookupA_of_mem_nodup o1 k v1 hnd1 hkv
        cases v1 with
        | dict dv =>
          cases w2 with
          | num m =>
            rw [alignedB] at halign
            cases halign
          | str s =>
            rw [alignedB] at halign
            cases halign
          | dict dw =>
            rw [alignedB] at halign
            have halign2 : alignedB (DVal.dict dw) (DVal.dict dv) = true :=
              alignedEntries_mem o2 o1 k _ _ ha21 hmw2 hlk1
            rw [alignedB] at halign2
            rw [EChunk_dict_dict o2 parent k dv dw hlk] at hc
            obtain ⟨hnddv, hwfdv⟩ := wfD_dict dv (wfEntries_mem o1 k _ hwf1 hkv)
            obtain ⟨hnddw, hwfdw⟩ := wfD_dict dw (wfEntries_mem o2 k _ hwf2 hmw2)
            have hlt : sizeOf dv + sizeOf dw < n := by
              have h1 := sizeOf_snd_lt_of_mem k (DVal.dict dv) o1 hkv
              have h2 := sizeOf_snd_lt_of_mem k (DVal.dict dw) o2 hmw2
              have h3 := sizeOf_dict_entries dv
              have h4 := sizeOf_dict_entries dw
              omega
            have hrec := IH (sizeOf dv + sizeOf dw) hlt dv dw (parent ++ " " ++ k)
              le_rfl hnddv hnddw hwfdv hwfdw halign halign2 p v w hc
            rw [EDiff]
            refine List.mem_append_left _ ?_
            refine (mem_ELoop1 o2 o1 parent _).mpr ⟨k, DVal.dict dw, hmw2, ?_⟩
            rw [EChunk_dict_dict o1 parent k dw dv hlk1]
            exact hrec
        | num a =>
          have hleaf : isDictD w2 = false := by
            cases w2 with
            | dict dw =>
              rw [alignedB] at halign
              cases halign
            | num m => rfl
            | str s => rfl
          rw [EChunk_leaf o2 parent k (DVal.num a) w2 hlk (Or.inl rfl)] at hc
          by_cases hb : dBeq (DVal.num a) w2 = true
          · rw [if_pos hb] at hc
            cases hc
          · rw [if_neg hb] at hc
            have heq := List.mem_singleton.mp hc
            rw [Prod.mk.injEq, Prod.mk.injEq] at heq
            obtain ⟨hp, hv, hw⟩ := heq
            rw [hp, hv, hw, EDiff]
            refine List.mem_append_left _ ?_
            refine (mem_ELoop1 o2 o1 parent _).mpr ⟨k, w2, hmw2, ?_⟩
            rw [EChunk_leaf o1 parent k w2 (DVal.num a) hlk1 (Or.inr rfl)]
            rw [dBeq_leaf_symm w2 (DVal.num a) (Or.inl hleaf)]
            rw [if_neg hb]
            exact List.mem_singleton.mpr rfl
        | str u =>
          have hleaf : isDictD w2 = false := by
            cases w2 with
            | dict dw =>
              rw [alignedB] at halign
              cases halign
            | num m => rfl
            | str s => rfl
          rw [EChunk_leaf o2 parent k (DVal.str u) w2 hlk (Or.inl rfl)] at hc
          by_cases hb : dBeq (DVal.str u) w2 = true
          · rw [if_pos hb] at hc
            cases hc
          · rw [if_neg hb] at hc
            have heq := List.mem_singleton.mp hc
            rw [Prod.mk.injEq, Prod.mk.injEq] at heq
            obtain ⟨hp, hv, hw⟩ := heq
            rw [hp, hv, hw, EDiff]
            refine List.mem_append_left _ ?_
            refine (mem_ELoop1 o2 o1 parent _).mpr ⟨k, w2, hmw2, ?_⟩
            rw [EChunk_leaf o1 parent k w2 (DVal.str u) hlk1 (Or.inr rfl)]
            rw [dBeq_leaf_symm w2 (DVal.str u) (Or.inl hleaf)]
            rw [if_neg hb]
            exact List.mem_singleton.mpr rfl
    · obtain ⟨k, w0, hmo2, hcont, htr, he⟩ :=
        (mem_ELoop2E o2 (o1.map Prod.fst) parent (p, (v, w))).mp hm2
      rw [Prod.mk.injEq, Prod.mk.injEq] at he
      obtain ⟨hp, hv, hw⟩ := he
      rw [hp, hv, hw]
      have hmemk : k ∉ o1.map Prod.fst := by
        intro hm
        rw [(contains_iff_mem_keys o1 k).mpr hm] at hcont
        cases hcont
      have hlk1 : lookupA o1 k = none := lookupA_eq_none_of_not_mem o1 k hmemk
      rw [EDiff]
      refine List.mem_append_left _ ?_
      refine (mem_ELoop1 o2 o1 parent _).mpr ⟨k, w0, hmo2, ?_⟩
      rw [EChunk_none o1 parent k w0 hlk1, if_pos htr]
      exact List.mem_singleton.mpr rfl

/-- C8 (amended): diff is symmetric up to value-pair order only on pairs
of trees that are well formed (distinct keys per dict), aligned (no dict
on one side facing a leaf on the other — otherwise one direction crashes
with a TypeError while the other returns, as the counterexample shows)
and whose keys are space-free (so distinct key paths cannot collide in
the flat path strings).  On such pairs neither direction crashes, each
reports every differing path once, and the two reports contain exactly
the same paths with each value pair swapped. -/
theorem c8_diff_swap_symmetry (a b : List (String × DVal))
    (hwa : wfD (DVal.dict a) = true) (hwb : wfD (DVal.dict b) = true)
    (hsa : spaceFreeD (DVal.dict a) = true) (hsb : spaceFreeD (DVal.dict b) = true)
    (hab : alignedB (DVal.dict a) (DVal.dict b) = true)
    (hba : alignedB (DVal.dict b) (DVal.dict a) = true) :
    ∃ l1 l2, diff_objects a b "" = Except.ok l1 ∧ diff_objects b a "" = Except.ok l2 ∧
      (l1.map Prod.fst).Nodup ∧ (l2.map Prod.fst).Nodup ∧
      ∀ (p : String) (v w : DVal), (p, (v, w)) ∈ l1 ↔ (p, (w, v)) ∈ l2 := by
  obtain ⟨hnda, hwfa⟩ := wfD_dict a hwa
  obtain ⟨hndb, hwfb⟩ := wfD_dict b hwb
  rw [spaceFreeD] at hsa hsb
  rw [alignedB] at hab hba
  have hpsp : ParentSp "" := Or.inl rfl
  have hnd1 : ((EDiff a b "").map Prod.fst).Nodup :=
    EDiff_paths_nodup (sizeOf a) a b "" le_rfl hnda hwfa hsa hndb hwfb hsb hpsp
  have hnd2 : ((EDiff b a "").map Prod.fst).Nodup :=
    EDiff_paths_nodup (sizeOf b) b a "" le_rfl hndb hwfb hsb hnda hwfa hsa hpsp
  have hfa : diffObjects a (DVal.dict b) "" = Except.ok (EDiff a b "") :=
    (faith_aux (sizeOf a)).2 a b "" le_rfl hab hndb hwfb hnd1
  have hfb : diffObjects b (DVal.dict a) "" = Except.ok (EDiff b a "") :=
    (faith_aux (sizeOf b)).2 b a "" le_rfl hba hnda hwfa hnd2
  refine ⟨EDiff a b "", EDiff b a "", hfa, hfb, hnd1, hnd2, ?_⟩
  intro p v w
  constructor
  · exact EDiff_swap (sizeOf a + sizeOf b) a b "" le_rfl hnda hndb hwfa hwfb hab hba p v w
  · intro h
    exact EDiff_swap (sizeOf b + sizeOf a) b a "" le_rfl hndb hnda hwfb hwfa hba hab p w v h

set_option maxRecDepth 8000 in
set_option maxHeartbeats 2000000 in
/-- Witness: the amended symmetry theorem applied to the concrete aligned
pair x=1,y=2 versus x=1,y=3. -/
theorem c8_witness :
    ∃ l1 l2,
      diff_objects [("x", DVal.num 1), ("y", DVal.num 2)]
          [("x", DVal.num 1), ("y", DVal.num 3)] "" = Except.ok l1 ∧
      diff_objects [("x", DVal.num 1), ("y", DVal.num 3)]
          [("x", DVal.num 1), ("y", DVal.num 2)] "" = Except.ok l2 ∧
      (l1.map Prod.fst).Nodup ∧ (l2.map Prod.fst).Nodup ∧
      ∀ (p : String) (v w : DVal), (p, (v, w)) ∈ l1 ↔ (p, (w, v)) ∈ l2 :=
  c8_diff_swap_symmetry [("x", DVal.num 1), ("y", DVal.num 2)]
    [("x", DVal.num 1), ("y", DVal.num 3)]
    rfl rfl rfl rfl rfl rfl
